import Mathlib

/-
A verification development for the libextension plugin manager.

The Go sources are shallowly embedded: filesystem state becomes an explicit
association list from paths (component lists) to entries, each manager
operation becomes a pure Lean function from state to (result, state), and
every fallible external call (mkdir, fetch, rename, ...) takes an explicit
fault-injection flag.  String-level path manipulation (filepath.Clean,
filepath.Join, strings.HasPrefix) is modelled separately for the archive
sanitization code, which works on strings.
-/

namespace Libext

/-- A filesystem path, as a list of components below an implicit root. -/
abbrev Path := List String

/-- Payload of the fetched plugin, mirroring the dynamic type switch in
`writePluginFiles` (string, byte slice, reader, or anything else). -/
inductive PContent
  | str (s : String)
  | bytes (s : String)
  | reader (s : String)
  | unsupported
deriving DecidableEq

/-- The `Info` record from plugin.go (json-serialized as metadata.json). -/
structure Info where
  name : String
  fileName : String
  version : String
  description : String
  store : String
  runtime : String
  metadata : List (String × String)
  status : String
  content : PContent
deriving DecidableEq

/-- Contents of a file on disk: either a well-formed serialized `Info`
record (what `json.MarshalIndent` of an `Info` produces), or arbitrary
other bytes that do not parse back into a record. -/
inductive FileContent
  | infoJson (i : Info)
  | otherData (s : String)
deriving DecidableEq

/-- A filesystem node. -/
inductive Entry
  | dir
  | file (c : FileContent)
deriving DecidableEq

/-- The filesystem: an association list from paths to entries; the first
binding for a path wins. -/
abbrev FS := List (Path × Entry)

/-- Lookup: the entry at a path, if any (`os.Stat` succeeds iff this is
`some`). -/
def FS.get : FS → Path → Option Entry
  | [], _ => none
  | (p, e) :: t, q => if p = q then some e else FS.get t q

/-- Remove every binding for one exact path. -/
def FS.eraseKey : FS → Path → FS
  | [], _ => []
  | (p, e) :: t, q => if p = q then FS.eraseKey t q else (p, e) :: FS.eraseKey t q

/-- Write (create or overwrite) the entry at a path. -/
def FS.set (fs : FS) (p : Path) (e : Entry) : FS :=
  (p, e) :: FS.eraseKey fs p

/-- Is `p` equal to `d` or below it?  (`d` is a component-wise ancestor.) -/
def under (d p : Path) : Bool := d.isPrefixOf p

/-- Model of `os.RemoveAll`: delete the node at `d` and everything below it. -/
def FS.removeSubtree : FS → Path → FS
  | [], _ => []
  | (p, e) :: t, d => if under d p then FS.removeSubtree t d else (p, e) :: FS.removeSubtree t d

/-- Model of `os.Rename src dst` (success case): move the whole subtree rooted at
`src` to `dst`.  Failures are injected by the callers through flags;
`os.Rename` itself fails when `dst` exists, so on success nothing is at
`dst` and dropping stale `dst` bindings is unobservable. -/
def renameFS : FS → Path → Path → FS
  | [], _, _ => []
  | (p, e) :: t, src, dst =>
    if under src p then (dst ++ p.drop src.length, e) :: renameFS t src dst
    else if under dst p then renameFS t src dst
    else (p, e) :: renameFS t src dst

/-! ### MkdirAll -/

/-- The nonempty prefixes of a path: every directory `os.MkdirAll`
ensures exists. -/
def prefixesOf (p : Path) : List Path := (List.range p.length).map (fun i => p.take (i + 1))

/-- One step of `os.MkdirAll`: create the directory if nothing is there. -/
def mkdirStep (acc : FS) (q : Path) : FS :=
  match FS.get acc q with
  | none => FS.set acc q .dir
  | some _ => acc

/-- Effect of a successful `os.MkdirAll p`. -/
def mkdirAllF (fs : FS) (p : Path) : FS := (prefixesOf p).foldl mkdirStep fs

/-- Model of when `os.MkdirAll` succeeds: it fails exactly when a needed prefix exists as a regular
file (ENOTDIR). -/
def mkdirOk (fs : FS) (p : Path) : Bool :=
  (prefixesOf p).all (fun q =>
    match FS.get fs q with
    | some (.file _) => false
    | _ => true)

/-- Model of `os.MkdirAll` with an injected fault flag for all other error causes. -/
def mkdirAllE (fs : FS) (p : Path) (fail : Bool) : Except Unit FS :=
  if fail = true then .error ()
  else if mkdirOk fs p then .ok (mkdirAllF fs p) else .error ()

/-! ### String-level path handling (Go path/filepath on Unix)

The archive extraction code sanitizes entry names with
`filepath.Join(destDir, filepath.Clean(header.Name))` followed by
`strings.HasPrefix(target, destDir)`; these are modelled here at the
string level, with `filepath.Clean` given by its component-level
semantics (drop empty and "." components, resolve ".." against the
stack, keep leading ".." for relative paths, drop it for rooted ones). -/

/-- Model of `strings.HasPrefix s p`. -/
def strStarts (s p : String) : Bool := p.data.isPrefixOf s.data

/-- Model of `strings.HasSuffix s p`. -/
def strEnds (s p : String) : Bool := p.data.isSuffixOf s.data

/-- Model of `strings.Contains s p`. -/
def strContainsSub (s p : String) : Bool := s.data.tails.any (fun t => p.data.isPrefixOf t)

/-- Split a character list on `'/'`, keeping empty segments. -/
def splitSlash : List Char → List (List Char)
  | [] => [[]]
  | c :: cs =>
    let r := splitSlash cs
    if c = '/' then [] :: r
    else
      match r with
      | h :: t => (c :: h) :: t
      | [] => [[c]]

/-- Join components with `'/'`. -/
def joinSlash : List (List Char) → List Char
  | [] => []
  | [c] => c
  | c :: cs => c ++ '/' :: joinSlash cs

/-- Process components against a reversed output stack, resolving `".."`. -/
def cleanStack (rooted : Bool) : List (List Char) → List (List Char) → List (List Char)
  | acc, [] => acc
  | acc, comp :: rest =>
    if comp = ['.', '.'] then
      match acc with
      | [] =>
        if rooted then cleanStack rooted [] rest
        else cleanStack rooted [['.', '.']] rest
      | top :: accRest =>
        if top = ['.', '.'] then cleanStack rooted (comp :: acc) rest
        else cleanStack rooted accRest rest
    else cleanStack rooted (comp :: acc) rest

/-- Model of `filepath.Clean` (Unix semantics). -/
def goClean (s : String) : String :=
  match s.data with
  | [] => "."
  | c :: _ =>
    let rooted := c = '/'
    let comps := (splitSlash s.data).filter (fun comp => comp != [] && comp != ['.'])
    let comps2 := (cleanStack rooted [] comps).reverse
    if rooted then ⟨'/' :: joinSlash comps2⟩
    else if comps2 = [] then "." else ⟨joinSlash comps2⟩

/-- Model of `filepath.Join a b` (two arguments): join the non-empty elements with
`'/'` and `Clean` the result. -/
def goJoin (a b : String) : String :=
  if a = "" then (if b = "" then "" else goClean b)
  else goClean ⟨a.data ++ '/' :: b.data⟩

/-- Is `p` the directory `d` itself or a path inside it (the semantic
containment the spec asserts)? -/
def insideDir (d p : String) : Bool := (p == d) || strStarts p ⟨d.data ++ ['/']⟩

/-! ### Archive extraction (extractTar / extractZip) -/

/-- Tar entry type flags distinguished by `extractTar` (any other flag is
skipped). -/
inductive TarType
  | dir
  | reg
  | other
deriving DecidableEq

/-- A tar archive entry: its header name and type flag. -/
structure TarEntry where
  name : String
  typeflag : TarType
deriving DecidableEq

/-- The filesystem writes performed by `extractTar`: the resolved target
of each dir/regular entry, in order (`true` marks a directory).  On the
first entry whose resolved target fails the `strings.HasPrefix` check the
extraction aborts with the invalid-path error, keeping earlier writes. -/
def extractTarM (destDir : String) : List TarEntry → List (String × Bool) × Option String
  | [] => ([], none)
  | e :: rest =>
    let target := goJoin destDir (goClean e.name)
    if strStarts target destDir = false then ([], some e.name)
    else
      match e.typeflag with
      | .dir =>
        match extractTarM destDir rest with
        | (ws, err) => ((target, true) :: ws, err)
      | .reg =>
        match extractTarM destDir rest with
        | (ws, err) => ((target, false) :: ws, err)
      | .other => extractTarM destDir rest

/-- A zip archive entry: its name and whether it is a directory. -/
structure ZipEntry where
  name : String
  isDir : Bool
deriving DecidableEq

/-- The filesystem writes performed by `extractZip`, with the same
sanitization check as `extractTarM`. -/
def extractZipM (destDir : String) : List ZipEntry → List (String × Bool) × Option String
  | [] => ([], none)
  | e :: rest =>
    let target := goJoin destDir (goClean e.name)
    if strStarts target destDir = false then ([], some e.name)
    else if e.isDir then
      match extractZipM destDir rest with
      | (ws, err) => ((target, true) :: ws, err)
    else
      match extractZipM destDir rest with
      | (ws, err) => ((target, false) :: ws, err)

/-! ### Glob matching (Go path/filepath Match)

`FindAsset` calls `filepath.Match` and discards its error (a malformed
pattern reports no match), so the model returns `false` both on mismatch
and on a bad pattern.  Character classes follow Go's `getEsc` rules: a
class character may not be `-` or `]`, may be backslash-escaped, and must
be followed by more of the class. -/

/-- One (possibly escaped) character-class character, as in Go's
`getEsc`; fails on `-`, `]`, a dangling escape, or end of pattern. -/
def getEsc : List Char → Option (Char × List Char)
  | [] => none
  | '-' :: _ => none
  | ']' :: _ => none
  | '\\' :: rest =>
    match rest with
    | [] => none
    | c :: r => if r = [] then none else some (c, r)
  | c :: rest => if rest = [] then none else some (c, rest)

/-- Parse the ranges of a character class up to the closing `]`. -/
def parseRanges : Nat → List Char → List (Char × Char) → Option (List (Char × Char) × List Char)
  | 0, _, _ => none
  | _ + 1, ']' :: rest, acc =>
    if acc = [] then none else some (acc, rest)
  | f + 1, cs, acc =>
    match getEsc cs with
    | none => none
    | some (lo, cs1) =>
      match cs1 with
      | '-' :: cs2 =>
        match getEsc cs2 with
        | none => none
        | some (hi, cs3) => parseRanges f cs3 ((lo, hi) :: acc)
      | _ => parseRanges f cs1 ((lo, lo) :: acc)

/-- Does a character satisfy a (possibly negated) class? -/
def classMatch (c : Char) (negated : Bool) (ranges : List (Char × Char)) : Bool :=
  let m := ranges.any (fun r => decide (r.1 ≤ c) && decide (c ≤ r.2))
  if negated then !m else m

/-- Fuel-indexed glob matcher (`*` does not cross `/`, `?` matches one
non-`/` character, `\\` escapes, `[...]` is a class). -/
def goMatchF : Nat → List Char → List Char → Bool
  | 0, _, _ => false
  | _ + 1, [], s => s.isEmpty
  | f + 1, '*' :: ps, s =>
    goMatchF f ps s ||
      (match s with
       | [] => false
       | c :: s2 => if c = '/' then false else goMatchF f ('*' :: ps) s2)
  | _ + 1, '?' :: _, [] => false
  | f + 1, '?' :: ps, c :: s2 => if c = '/' then false else goMatchF f ps s2
  | f + 1, '[' :: ps, s =>
    match s with
    | [] => false
    | c :: s2 =>
      match ps with
      | '^' :: ps2 =>
        match parseRanges (ps2.length + 1) ps2 [] with
        | none => false
        | some (ranges, rest) => classMatch c true ranges && goMatchF f rest s2
      | _ =>
        match parseRanges (ps.length + 1) ps [] with
        | none => false
        | some (ranges, rest) => classMatch c false ranges && goMatchF f rest s2
  | f + 1, '\\' :: ps, s =>
    match ps, s with
    | p :: ps2, c :: s2 => decide (p = c) && goMatchF f ps2 s2
    | _, _ => false
  | f + 1, p :: ps, s =>
    match s with
    | [] => false
    | c :: s2 => decide (p = c) && goMatchF f ps s2

/-- Model of `filepath.Match pattern s`, with a bad pattern counted as no match
(the caller drops the error). -/
def goMatch (pattern s : String) : Bool :=
  goMatchF (pattern.data.length + s.data.length + 1) pattern.data s.data

/-! ### FindAsset -/

/-- Failure modes of `FindAsset`. -/
inductive FErr
  | noCandidates (msg : String)
  | noMatch
deriving DecidableEq

/-- The candidate filter: keep assets that start with the plugin name
and do not carry a detached-signature suffix. -/
def keepAsset (name asset : String) : Bool :=
  strStarts asset name && !(strEnds asset ".sha256") &&
    !(strEnds asset ".asc") && !(strEnds asset ".sig")

/-- Runtime classification of a matched extension. -/
def runtimeOf (ext : String) : String :=
  if strContainsSub ext "wasm" then "wasm" else "exec"

/-- Translation of `FindAsset` from the source: filter the assets, then run
the triple-nested early-return search (patterns, then extensions, then
candidates). -/
def FindAsset (pfx name version goos arch : String) (getAssets : Unit → List String) :
    Except FErr (String × String) :=
  let validAssets := (getAssets ()).filter (keepAsset name)
  if validAssets.isEmpty then
    .error (.noCandidates (pfx ++ "-" ++ name))
  else
    let patterns := [name ++ "-" ++ version ++ "-" ++ goos ++ "-" ++ arch,
                     name ++ "-" ++ version, name]
    let extensions := ["", ".exe", ".zip", ".tar.gz", ".tgz", ".wasm"]
    match patterns.findSome? (fun pat =>
        extensions.findSome? (fun ext =>
          validAssets.findSome? (fun asset =>
            if goMatch (pat ++ ext) asset then some (asset, runtimeOf ext) else none))) with
    | some r => .ok r
    | none => .error .noMatch

/-- The flattened search space, in the spec's priority order: pattern
specificity first, then extension order, then candidate order. -/
def allCombos (patterns exts cands : List String) : List (String × String × String) :=
  patterns.foldr (fun p acc =>
    exts.foldr (fun e acc2 =>
      cands.foldr (fun a acc3 => (p, e, a) :: acc3) acc2) acc) []

/-- First glob match in a flattened search space. -/
def firstHit : List (String × String × String) → Option (String × String)
  | [] => none
  | (p, e, a) :: rest => if goMatch (p ++ e) a then some (a, runtimeOf e) else firstHit rest

/-- The spec's description of the search: scan the flattened,
priority-ordered space and return the first glob match immediately. -/
def FindAssetSpec (pfx name version goos arch : String) (assets : List String) :
    Except FErr (String × String) :=
  let valid := assets.filter (keepAsset name)
  if valid.isEmpty then .error (.noCandidates (pfx ++ "-" ++ name))
  else
    match firstHit (allCombos
        [name ++ "-" ++ version ++ "-" ++ goos ++ "-" ++ arch, name ++ "-" ++ version, name]
        ["", ".exe", ".zip", ".tar.gz", ".tgz", ".wasm"] valid) with
    | some r => .ok r
    | none => .error .noMatch

/-! ### writePluginFiles -/

/-- Does the path `p` extend the nonempty path `d` as a string: `p`
starts with all components of `d` but the last, and its next component
has `d`'s last component as a string prefix.  For slash-joined path
strings this is exactly `strings.HasPrefix (str p) (str d)` — the set of
targets the sanitized archive stages ever write (the amended C2
property), which includes sibling escapes such as `d ++ "x/…"` but never
leaves the parent of `d`. -/
def strExtends (d p : Path) : Bool :=
  match d.getLast? with
  | none => true
  | some last =>
    d.dropLast.isPrefixOf p &&
      match p.drop (d.length - 1) with
      | [] => false
      | c :: _ => strStarts c last

/-- The processor-chain abstraction: the combined effect of
`processFile` with the stage chain selected for an archive content type.
Given the filesystem, the plugin-specific directory, and the content, it
returns either an error (processing failure, including mid-chain
cancellation), terminal completion (`ok none`, after direct extraction),
or a final stream to copy into the plugin file (`ok (some s)`), together
with the updated filesystem. -/
abbrev Proc := FS → Path → String → (Except Unit (Option String)) × FS

/-- Fault-injection flags for the fallible calls inside
`writePluginFiles`. -/
structure WfFaults where
  mkdirFail : Bool
  openFail : Bool
  copyFail : Bool
deriving DecidableEq

/-- The keys of the `fileProcessorMap` table (the stage chains
themselves are abstracted by `Proc`). -/
def fileProcessorMap : List String :=
  ["application/gzip", "application/x-gzip", "application/zip", "application/x-xz",
   "application/x-bzip2", "application/x-lz4", "application/x-brotli"]

/-- The two content type-switches of `writePluginFiles`, combined: the
raw byte string the content carries, or `none` for an unsupported
dynamic type (the default case errors). -/
def contentString : PContent → Option String
  | .str s => some s
  | .bytes s => some s
  | .reader s => some s
  | .unsupported => none

/-- Translation of `writePluginFiles`: create the plugin-specific directory
`dir/<info.Name>`, sniff the content type (`detect` models
`http.DetectContentType` on the sniffed bytes), create the plugin file
`dir/<info.Name>/<info.FileName>`, then either copy the content verbatim
(content type not in the processor table) or run the processor chain and
copy its final stream if it did not already complete terminally. -/
def writePluginFiles (detect : String → String) (proc : Proc) (wf : WfFaults)
    (fs : FS) (dir : Path) (info : Info) : (Except Unit Unit) × FS :=
  let plugindir := dir ++ [info.name]
  match mkdirAllE fs plugindir wf.mkdirFail with
  | .error _ => (.error (), fs)
  | .ok fs1 =>
    match contentString info.content with
    | none => (.error (), fs1)
    | some s =>
      let contentType := detect s
      if wf.openFail then (.error (), fs1)
      else
        let binPath := plugindir ++ [info.fileName]
        let fs2 := FS.set fs1 binPath (.file (.otherData ""))
        if fileProcessorMap.contains contentType then
          match proc fs2 plugindir s with
          | (.error _, fs3) => (.error (), fs3)
          | (.ok none, fs3) => (.ok (), fs3)
          | (.ok (some s2), fs3) =>
            if wf.copyFail then (.error (), fs3)
            else (.ok (), FS.set fs3 binPath (.file (.otherData s2)))
        else
          if wf.copyFail then (.error (), fs2)
          else (.ok (), FS.set fs2 binPath (.file (.otherData s)))

/-! ### Install -/

/-- Errors of the `Install` body after the already-installed check; all
of them trigger the deferred cleanup. -/
inductive CoreErr
  | mkdirFail
  | fetchFail
  | writeFilesFail
  | metaWriteFail
deriving DecidableEq

/-- All errors of `Install`. -/
inductive IErr
  | cancelled
  | noPluginDir
  | alreadyInstalled
  | core (e : CoreErr)
deriving DecidableEq

/-- Fault-injection flags for `Install`. -/
structure InstFaults where
  ctxCancelled : Bool
  mkdirFail : Bool
  wf : WfFaults
  metaWriteFail : Bool
deriving DecidableEq

/-- The record `Install` persists: the caller-supplied version string,
status `"enabled"`, and a fresh metadata map holding only the install
timestamp. -/
def stampInstall (info : Info) (version now : String) : Info :=
  { info with version := version, status := "enabled", metadata := [("installed", now)] }

/-- The body of `Install` between directory creation and the final
metadata write (the region covered by the success-flag deferred
cleanup). -/
def installCore (detect : String → String) (proc : Proc) (fl : InstFaults)
    (fetch : Except Unit Info) (now : String) (fs : FS) (root : Path)
    (name version : String) : (Except CoreErr Unit) × FS :=
  let pluginDir := root ++ [name]
  match mkdirAllE fs pluginDir fl.mkdirFail with
  | .error _ => (.error .mkdirFail, fs)
  | .ok fs1 =>
    match fetch with
    | .error _ => (.error .fetchFail, fs1)
    | .ok info =>
      match writePluginFiles detect proc fl.wf fs1 pluginDir info with
      | (.error _, fs2) => (.error .writeFilesFail, fs2)
      | (.ok _, fs2) =>
        if fl.metaWriteFail then (.error .metaWriteFail, fs2)
        else (.ok (), FS.set fs2 (pluginDir ++ ["metadata.json"])
               (.file (.infoJson (stampInstall info version now))))

/-- Translation of `Manager.Install`: context check, plugin-dir check, already-installed
check, then the body, removing the whole plugin directory on any body
failure (the deferred success-flag cleanup). -/
def Install (detect : String → String) (proc : Proc) (fl : InstFaults)
    (fetch : Except Unit Info) (now : String) (fs : FS) (root : Path)
    (name version : String) : (Except IErr Unit) × FS :=
  if fl.ctxCancelled then (.error .cancelled, fs)
  else if root = [] then (.error .noPluginDir, fs)
  else
    let pluginDir := root ++ [name]
    match fs.get pluginDir with
    | some _ => (.error .alreadyInstalled, fs)
    | none =>
      match installCore detect proc fl fetch now fs root name version with
      | (.ok _, fs2) => (.ok (), fs2)
      | (.error e, fs2) => (.error (.core e), FS.removeSubtree fs2 pluginDir)

/-! ### List -/

/-- Does a path name a direct child of `root`, and with which name? -/
def childNameOf (root p : Path) : Option String :=
  if under root p then
    match p.drop root.length with
    | [n] => some n
    | _ => none
  else none

/-- Child names appearing as binding keys in the filesystem. -/
def childKeys : FS → Path → List String
  | [], _ => []
  | (p, _) :: t, root =>
    match childNameOf root p with
    | some n => n :: childKeys t root
    | none => childKeys t root

/-- Keep the first occurrence of each name. -/
def dedupGo (seen : List String) : List String → List String
  | [] => []
  | s :: t => if seen.contains s then dedupGo seen t else s :: dedupGo (s :: seen) t

/-- Code-point-wise lexicographic strictly-less on strings. -/
def strLtB : List Char → List Char → Bool
  | [], [] => false
  | [], _ :: _ => true
  | _ :: _, [] => false
  | a :: as, b :: bs =>
    if a.toNat < b.toNat then true
    else if b.toNat < a.toNat then false
    else strLtB as bs

/-- Lexicographic less-or-equal on strings. -/
def strLeB (a b : String) : Bool := !(strLtB b.data a.data)

/-- Insertion into a sorted list. -/
def insertSorted (s : String) : List String → List String
  | [] => [s]
  | x :: xs => if strLeB s x then s :: x :: xs else x :: insertSorted s xs

/-- Sort names (`os.ReadDir` returns entries sorted by name). -/
def sortStrs (l : List String) : List String := l.foldr insertSorted []

/-- The directory entries `os.ReadDir` reports under the plugin root. -/
def dirChildNames (fs : FS) (root : Path) : List String :=
  sortStrs (dedupGo [] (childKeys fs root))

/-- Model of `json.Unmarshal` into an `Info`: succeeds exactly on well-formed
serialized records. -/
def unmarshalInfo : FileContent → Option Info
  | .infoJson i => some i
  | .otherData _ => none

/-- Translation of `readMetadata`: read and parse a record file, `none` on any
failure. -/
def readMetadataM (fs : FS) (p : Path) : Option Info :=
  match fs.get p with
  | some (.file c) => unmarshalInfo c
  | _ => none

/-- Errors of `Manager.List`. -/
inductive LErr
  | cancelled
  | readDirFail
  | readMetaFail (n : String)
  | parseFail (n : String)
deriving DecidableEq

/-- The loop body of `Manager.List` over the directory entries:
non-directories are skipped, a missing record file is skipped, a record
that is unreadable (a directory) or unparseable aborts the whole call. -/
def listGo (fs : FS) (root : Path) : List String → Except LErr (List Info)
  | [] => .ok []
  | n :: rest =>
    match fs.get (root ++ [n]) with
    | some .dir =>
      (match fs.get (root ++ [n, "metadata.json"]) with
       | none => listGo fs root rest
       | some .dir => .error (.readMetaFail n)
       | some (.file c) =>
         match unmarshalInfo c with
         | none => .error (.parseFail n)
         | some i => (listGo fs root rest).map (fun l => i :: l))
    | _ => listGo fs root rest

/-- Translation of `Manager.List`: an absent plugin root yields the empty list, a root
that is not a directory is a read error, otherwise fold over the sorted
entries. -/
def ListM (ctxC : Bool) (fs : FS) (root : Path) : Except LErr (List Info) :=
  if ctxC then .error .cancelled
  else
    match fs.get root with
    | none => .ok []
    | some (.file _) => .error .readDirFail
    | some .dir => listGo fs root (dirChildNames fs root)

/-- The record `ListM` reports for one child, if any. -/
def goodInfo (fs : FS) (root : Path) (n : String) : Option Info :=
  match fs.get (root ++ [n]) with
  | some .dir =>
    match fs.get (root ++ [n, "metadata.json"]) with
    | some (.file (.infoJson i)) => some i
    | _ => none
  | _ => none

/-! ### Enable / Disable -/

/-- Errors of `Enable` and `Disable`. -/
inductive EDErr
  | cancelled
  | readFail
  | parseFail
deriving DecidableEq

/-- Translation of `Manager.Enable`: read the record, flip its status to `"enabled"`,
rewrite it; fail without touching the disk if the record is missing or
unreadable. -/
def Enable (ctxC : Bool) (fs : FS) (root : Path) (name : String) :
    (Except EDErr Unit) × FS :=
  if ctxC then (.error .cancelled, fs)
  else
    let metadataPath := root ++ [name, "metadata.json"]
    match fs.get metadataPath with
    | some (.file c) =>
      match unmarshalInfo c with
      | none => (.error .parseFail, fs)
      | some i =>
        (.ok (), FS.set fs metadataPath (.file (.infoJson { i with status := "enabled" })))
    | _ => (.error .readFail, fs)

/-- Translation of `Manager.Disable`: identical to `Enable` with status `"disabled"`. -/
def Disable (ctxC : Bool) (fs : FS) (root : Path) (name : String) :
    (Except EDErr Unit) × FS :=
  if ctxC then (.error .cancelled, fs)
  else
    let metadataPath := root ++ [name, "metadata.json"]
    match fs.get metadataPath with
    | some (.file c) =>
      match unmarshalInfo c with
      | none => (.error .parseFail, fs)
      | some i =>
        (.ok (), FS.set fs metadataPath (.file (.infoJson { i with status := "disabled" })))
    | _ => (.error .readFail, fs)

/-! ### Upgrade -/

/-- Errors of `Upgrade`. -/
inductive UErr
  | cancelled
  | notInstalled
  | readMetaFail
  | alreadyAtVersion
  | mkdirFail
  | fetchFail
  | writeFilesFail
  | metaWriteFail
  | rename1Fail
  | rename2Fail
deriving DecidableEq

/-- Fault-injection flags for `Upgrade` (`restoreFail` makes the
best-effort backup restore after a failed second rename fail too). -/
structure UpFaults where
  ctxCancelled : Bool
  mkdirTmpFail : Bool
  wf : WfFaults
  metaWriteFail : Bool
  rename1Fail : Bool
  rename2Fail : Bool
  restoreFail : Bool
deriving DecidableEq

/-- Go map read with the zero-value default. -/
def lookupMeta (m : List (String × String)) (k : String) : String :=
  match m.find? (fun kv => kv.1 == k) with
  | some kv => kv.2
  | none => ""

/-- The record `Upgrade` persists: target version, the current status,
and a fresh metadata map with the install timestamp, the old version and
the old install timestamp. -/
def stampUpgrade (info : Info) (version now : String) (cur : Info) : Info :=
  { info with
    version := version
    status := cur.status
    metadata := [("installed", now), ("upgraded_from", cur.version),
                 ("previous_install", lookupMeta cur.metadata "installed")] }

/-- Everything `Upgrade` does after registering the deferred removal of
the temporary staging directory: stage into `<name>.upgrade`, write the
new record there, then the two-rename swap with best-effort restore. -/
def upgradeCore (detect : String → String) (proc : Proc) (uf : UpFaults)
    (fetch : Except Unit Info) (now : String) (fs : FS) (root : Path)
    (name version : String) (cur : Info) : (Except UErr Unit) × FS :=
  let pluginDir := root ++ [name]
  let tmpDir := root ++ [name ++ ".upgrade"]
  let backupDir := root ++ [name ++ ".backup"]
  match mkdirAllE fs tmpDir uf.mkdirTmpFail with
  | .error _ => (.error .mkdirFail, fs)
  | .ok fs1 =>
    match fetch with
    | .error _ => (.error .fetchFail, fs1)
    | .ok newInfo =>
      match writePluginFiles detect proc uf.wf fs1 tmpDir newInfo with
      | (.error _, fs2) => (.error .writeFilesFail, fs2)
      | (.ok _, fs2) =>
        if uf.metaWriteFail then (.error .metaWriteFail, fs2)
        else
          let fs3 := FS.set fs2 (tmpDir ++ ["metadata.json"])
            (.file (.infoJson (stampUpgrade newInfo version now cur)))
          if uf.rename1Fail then (.error .rename1Fail, fs3)
          else
            let fs4 := renameFS fs3 pluginDir backupDir
            if uf.rename2Fail then
              (.error .rename2Fail,
               if uf.restoreFail then fs4 else renameFS fs4 backupDir pluginDir)
            else
              (.ok (), FS.removeSubtree (renameFS fs4 tmpDir pluginDir) backupDir)

/-- Translation of `Manager.Upgrade`: context check, installed check, current-record
read, same-version check; then the core, with the deferred
`os.RemoveAll` of the staging directory applied on every exit. -/
def Upgrade (detect : String → String) (proc : Proc) (uf : UpFaults)
    (fetch : Except Unit Info) (now : String) (fs : FS) (root : Path)
    (name version : String) : (Except UErr Unit) × FS :=
  if uf.ctxCancelled then (.error .cancelled, fs)
  else
    let pluginDir := root ++ [name]
    match fs.get pluginDir with
    | none => (.error .notInstalled, fs)
    | some _ =>
      match readMetadataM fs (pluginDir ++ ["metadata.json"]) with
      | none => (.error .readMetaFail, fs)
      | some cur =>
        if cur.version = version then (.error .alreadyAtVersion, fs)
        else
          let tmpDir := root ++ [name ++ ".upgrade"]
          match upgradeCore detect proc uf fetch now fs root name version cur with
          | (r, fs2) => (r, FS.removeSubtree fs2 tmpDir)

theorem under_iff (d p : Path) : under d p = true ↔ ∃ r, p = d ++ r := by
  induction d generalizing p with
  | nil => simp [under, List.isPrefixOf]
  | cons a as ih =>
    cases p with
    | nil => simp [under, List.isPrefixOf]
    | cons b bs =>
      simp only [under, List.isPrefixOf, Bool.and_eq_true, beq_iff_eq] at *
      constructor
      · rintro ⟨rfl, h⟩
        obtain ⟨r, rfl⟩ := (ih bs).mp h
        exact ⟨r, rfl⟩
      · rintro ⟨r, hr⟩
        cases hr
        exact ⟨rfl, (ih (as ++ r)).mpr ⟨r, rfl⟩⟩

theorem under_append (d r : Path) : under d (d ++ r) = true :=
  (under_iff d (d ++ r)).mpr ⟨r, rfl⟩

theorem under_refl (d : Path) : under d d = true := by
  simpa using under_append d []

theorem get_eraseKey (fs : FS) (p q : Path) :
    FS.get (FS.eraseKey fs p) q = if q = p then none else fs.get q := by
  induction fs with
  | nil => simp [FS.eraseKey, FS.get]
  | cons h t ih =>
    obtain ⟨hp, he⟩ := h
    simp only [FS.eraseKey, FS.get]
    by_cases h1 : hp = p
    · rw [if_pos h1, ih]
      by_cases h2 : q = p
      · rw [if_pos h2, if_pos h2]
      · rw [if_neg h2, if_neg h2,
          if_neg (fun hq : hp = q => h2 (h1 ▸ hq : p = q).symm)]
    · rw [if_neg h1]
      simp only [FS.get, ih]
      by_cases h2 : hp = q
      · by_cases h3 : q = p
        · exact absurd (h3 ▸ h2) h1
        · simp [h2, h3]
      · by_cases h3 : q = p
        · simp [h2, h3, h1]
        · simp [h2, h3]

theorem get_set_self (fs : FS) (p : Path) (e : Entry) :
    FS.get (FS.set fs p e) p = some e := by
  simp [FS.set, FS.get]

theorem get_set_ne (fs : FS) (p q : Path) (e : Entry) (h : q ≠ p) :
    FS.get (FS.set fs p e) q = fs.get q := by
  simp only [FS.set, FS.get]
  rw [if_neg (fun hq : p = q => h hq.symm), get_eraseKey, if_neg h]

theorem get_removeSubtree (fs : FS) (d q : Path) :
    FS.get (FS.removeSubtree fs d) q = if under d q then none else fs.get q := by
  induction fs with
  | nil => simp [FS.removeSubtree, FS.get]
  | cons h t ih =>
    obtain ⟨hp, he⟩ := h
    by_cases h1 : under d hp
    · simp only [FS.removeSubtree, if_pos h1, ih]
      by_cases h2 : hp = q
      · subst h2; simp [h1, FS.get]
      · simp [FS.get, h2]
    · simp only [FS.removeSubtree, if_neg h1, FS.get, ih]
      by_cases h2 : hp = q
      · subst h2; simp [h1, FS.get]
      · simp [FS.get, h2]

theorem not_under_parallel (src dst : Path) (hsd : under src dst = false)
    (hds : under dst src = false) (r : Path) : under src (dst ++ r) = false := by
  cases h : under src (dst ++ r) with
  | false => rfl
  | true =>
    obtain ⟨t, ht⟩ := (under_iff _ _).mp h
    rcases List.append_eq_append_iff.mp ht with ⟨a, ha, _⟩ | ⟨c, hc, _⟩
    · exact absurd ((under_iff _ _).mpr ⟨a, ha⟩) (by simp [hds])
    · exact absurd ((under_iff _ _).mpr ⟨c, hc⟩) (by simp [hsd])

theorem under_both (src dst q : Path) (h1 : under src q = true) (h2 : under dst q = true) :
    under src dst = true ∨ under dst src = true := by
  obtain ⟨a, rfl⟩ := (under_iff _ _).mp h1
  obtain ⟨b, hb⟩ := (under_iff _ _).mp h2
  rcases List.append_eq_append_iff.mp hb with ⟨x, hx, _⟩ | ⟨x, hx, _⟩
  · exact Or.inl ((under_iff _ _).mpr ⟨x, hx⟩)
  · exact Or.inr ((under_iff _ _).mpr ⟨x, hx⟩)

theorem under_ne_single (root : Path) (a b : String) (h : a ≠ b) (r : Path) :
    under (root ++ [a]) (root ++ ([b] ++ r)) = false := by
  cases hu : under (root ++ [a]) (root ++ ([b] ++ r)) with
  | false => rfl
  | true =>
    obtain ⟨t, ht⟩ := (under_iff _ _).mp hu
    rw [List.append_assoc] at ht
    have h2 : [b] ++ r = [a] ++ t := List.append_cancel_left ht
    simp only [List.cons_append, List.nil_append] at h2
    injection h2 with hb _
    exact absurd hb.symm h

theorem parallel_single (root : Path) (a b : String) (h : a ≠ b) :
    under (root ++ [a]) (root ++ [b]) = false := by
  simpa using under_ne_single root a b h []

theorem str_append_ne (s t : String) (h : t ≠ "") : s ≠ s ++ t := by
  intro he
  apply h
  have hd : s.data = s.data ++ t.data := congrArg String.data he
  have h2 : s.data ++ t.data = s.data ++ [] := by simpa using hd.symm
  have h3 : t.data = [] := List.append_cancel_left h2
  cases t with
  | mk d => cases h3; rfl

/-- Moving a subtree out and back restores every path below the source
(assuming the source and destination are not nested in each other). -/
theorem get_rename_rename (fs : FS) (src dst q : Path)
    (hsd : under src dst = false) (hds : under dst src = false)
    (hq : under src q = true) :
    FS.get (renameFS (renameFS fs src dst) dst src) q = fs.get q := by
  induction fs with
  | nil => simp [renameFS, FS.get]
  | cons h t ih =>
    obtain ⟨p, e⟩ := h
    by_cases h1 : under src p
    · obtain ⟨r, rfl⟩ := (under_iff _ _).mp h1
      rw [show renameFS ((src ++ r, e) :: t) src dst =
            (dst ++ r, e) :: renameFS t src dst from by
          simp [renameFS, h1, List.drop_left]]
      rw [show renameFS ((dst ++ r, e) :: renameFS t src dst) dst src =
            (src ++ r, e) :: renameFS (renameFS t src dst) dst src from by
          simp [renameFS, under_append dst r, List.drop_left]]
      simp only [FS.get]
      by_cases h2 : src ++ r = q
      · rw [if_pos h2, if_pos h2]
      · rw [if_neg h2, if_neg h2, ih]
    · by_cases h2 : under dst p
      · rw [show renameFS ((p, e) :: t) src dst = renameFS t src dst from by
            simp [renameFS, h1, h2]]
        rw [ih]
        have hpq : p ≠ q := fun he => by
          subst he
          rcases under_both src dst p hq h2 with hc | hc
          · rw [hsd] at hc; exact Bool.noConfusion hc
          · rw [hds] at hc; exact Bool.noConfusion hc
        simp [FS.get, hpq]
      · rw [show renameFS ((p, e) :: t) src dst = (p, e) :: renameFS t src dst from by
            simp [renameFS, h1, h2]]
        rw [show renameFS ((p, e) :: renameFS t src dst) dst src =
              (p, e) :: renameFS (renameFS t src dst) dst src from by
            simp [renameFS, h1, h2]]
        simp only [FS.get]
        by_cases h3 : p = q
        · rw [if_pos h3, if_pos h3]
        · rw [if_neg h3, if_neg h3, ih]

/-- Every path below the source is gone after a rename (nothing of the
moved subtree remains at its old position). -/
theorem get_renameFS_src (fs : FS) (src dst q : Path)
    (hsd : under src dst = false) (hds : under dst src = false)
    (hq : under src q = true) :
    FS.get (renameFS fs src dst) q = none := by
  induction fs with
  | nil => simp [renameFS, FS.get]
  | cons h t ih =>
    obtain ⟨p, e⟩ := h
    by_cases h1 : under src p
    · obtain ⟨r, rfl⟩ := (under_iff _ _).mp h1
      rw [show renameFS ((src ++ r, e) :: t) src dst =
            (dst ++ r, e) :: renameFS t src dst from by
          simp [renameFS, h1, List.drop_left]]
      simp only [FS.get]
      have hne : dst ++ r ≠ q := by
        intro he
        subst he
        rcases under_both src dst (dst ++ r) hq (under_append dst r) with hc | hc
        · rw [hsd] at hc; exact Bool.noConfusion hc
        · rw [hds] at hc; exact Bool.noConfusion hc
      rw [if_neg hne, ih]
    · by_cases h2 : under dst p
      · rw [show renameFS ((p, e) :: t) src dst = renameFS t src dst from by
            simp [renameFS, h1, h2]]
        exact ih
      · rw [show renameFS ((p, e) :: t) src dst = (p, e) :: renameFS t src dst from by
            simp [renameFS, h1, h2]]
        simp only [FS.get]
        have hne : p ≠ q := fun he => by subst he; rw [hq] at h1; exact h1 rfl
        rw [if_neg hne, ih]

theorem get_foldl_mkdirStep (l : List Path) (fs : FS) (q : Path) (h : ∀ x ∈ l, x ≠ q) :
    FS.get (l.foldl mkdirStep fs) q = fs.get q := by
  induction l generalizing fs with
  | nil => rfl
  | cons a t ih =>
    simp only [List.foldl_cons]
    rw [ih _ (fun x hx => h x (List.mem_cons_of_mem a hx))]
    cases hg : FS.get fs a with
    | none =>
      rw [show mkdirStep fs a = FS.set fs a .dir from by unfold mkdirStep; rw [hg]]
      exact get_set_ne fs a q _ (fun he => h a (List.mem_cons_self a t) he.symm)
    | some e =>
      rw [show mkdirStep fs a = fs from by unfold mkdirStep; rw [hg]]

theorem mem_prefixesOf (q p : Path) (h : q ∈ prefixesOf p) : under q p = true := by
  simp only [prefixesOf, List.mem_map, List.mem_range] at h
  obtain ⟨i, _, rfl⟩ := h
  exact (under_iff _ _).mpr ⟨p.drop (i + 1), (List.take_append_drop (i + 1) p).symm⟩

theorem get_mkdirAllF_ne (fs : FS) (p q : Path) (h : under q p = false) :
    FS.get (mkdirAllF fs p) q = fs.get q :=
  get_foldl_mkdirStep _ fs q (fun x hx he => by
    subst he
    rw [mem_prefixesOf x p hx] at h
    exact Bool.noConfusion h)

theorem extractTarM_writes_start (destDir : String) (entries : List TarEntry) :
    ∀ t b, (t, b) ∈ (extractTarM destDir entries).1 → strStarts t destDir = true := by
  induction entries with
  | nil =>
    intro t b h
    simp [extractTarM] at h
  | cons e rest ih =>
    intro t b h
    obtain ⟨nm, tf⟩ := e
    rcases hrec : extractTarM destDir rest with ⟨ws, err⟩
    unfold extractTarM at h
    rw [hrec] at h
    by_cases hc : strStarts (goJoin destDir (goClean nm)) destDir = false
    · rw [if_pos hc] at h
      simp at h
    · rw [if_neg hc] at h
      have hc2 : strStarts (goJoin destDir (goClean nm)) destDir = true := by
        cases hx : strStarts (goJoin destDir (goClean nm)) destDir
        · exact absurd hx hc
        · rfl
      cases tf with
      | dir =>
        simp only [List.mem_cons] at h
        rcases h with heq | hm
        · cases heq; exact hc2
        · exact ih t b (by rw [hrec]; exact hm)
      | reg =>
        simp only [List.mem_cons] at h
        rcases h with heq | hm
        · cases heq; exact hc2
        · exact ih t b (by rw [hrec]; exact hm)
      | other =>
        exact ih t b (by rw [hrec]; exact h)

theorem extractZipM_writes_start (destDir : String) (entries : List ZipEntry) :
    ∀ t b, (t, b) ∈ (extractZipM destDir entries).1 → strStarts t destDir = true := by
  induction entries with
  | nil =>
    intro t b h
    simp [extractZipM] at h
  | cons e rest ih =>
    intro t b h
    obtain ⟨nm, isd⟩ := e
    rcases hrec : extractZipM destDir rest with ⟨ws, err⟩
    unfold extractZipM at h
    rw [hrec] at h
    by_cases hc : strStarts (goJoin destDir (goClean nm)) destDir = false
    · rw [if_pos hc] at h
      simp at h
    · rw [if_neg hc] at h
      have hc2 : strStarts (goJoin destDir (goClean nm)) destDir = true := by
        cases hx : strStarts (goJoin destDir (goClean nm)) destDir
        · exact absurd hx hc
        · rfl
      cases isd with
      | true =>
        rw [if_pos rfl] at h
        simp only [List.mem_cons] at h
        rcases h with heq | hm
        · cases heq; exact hc2
        · exact ih t b (by rw [hrec]; exact hm)
      | false =>
        rw [if_neg Bool.false_ne_true] at h
        simp only [List.mem_cons] at h
        rcases h with heq | hm
        · cases heq; exact hc2
        · exact ih t b (by rw [hrec]; exact hm)

/-- C2 counterexample: the sanitization is a bare string-prefix check, so
with destination directory `"/d"` the tar entry `"../dx/evil"` resolves to
`"/dx/evil"`, which is NOT inside `"/d"`, yet extraction does not fail and
writes that outside file — refuting the claim that only entries resolving
inside the destination are ever written. -/
theorem tar_sanitize_escape_counterexample :
    extractTarM "/d" [⟨"../dx/evil", .reg⟩] = ([("/dx/evil", false)], none) ∧
    insideDir "/d" "/dx/evil" = false :=
  ⟨by decide, by decide⟩

/-- C2 (amended): every path written by the tar or zip stage has the
destination directory as a string prefix of its resolved target; an entry
whose resolved target does not extend the destination string (for example
`"../../etc/passwd"`) aborts the extraction with the invalid-path error
and is not written.  (This is weaker than true containment: a sibling
directory whose name extends the destination's last component passes the
check, see the counterexample.) -/
theorem extract_sanitize_amended :
    (∀ destDir entries t b, (t, b) ∈ (extractTarM destDir entries).1 →
       strStarts t destDir = true) ∧
    (∀ destDir entries t b, (t, b) ∈ (extractZipM destDir entries).1 →
       strStarts t destDir = true) ∧
    (∀ destDir (e : TarEntry) rest,
       strStarts (goJoin destDir (goClean e.name)) destDir = false →
       extractTarM destDir (e :: rest) = ([], some e.name)) ∧
    (∀ destDir (e : ZipEntry) rest,
       strStarts (goJoin destDir (goClean e.name)) destDir = false →
       extractZipM destDir (e :: rest) = ([], some e.name)) ∧
    extractTarM "/d" [⟨"../../etc/passwd", .reg⟩] = ([], some "../../etc/passwd") ∧
    extractZipM "/d" [⟨"../../etc/passwd", false⟩] = ([], some "../../etc/passwd") := by
  refine ⟨extractTarM_writes_start, extractZipM_writes_start, ?_, ?_, by decide, by decide⟩
  · intro destDir e rest h
    simp [extractTarM, h]
  · intro destDir e rest h
    simp [extractZipM, h]

/-- Witness for the amended C2 theorem at concrete inputs. -/
theorem extract_sanitize_amended_witness :
    strStarts "/d/a" "/d" = true ∧
    extractTarM "/d" [⟨"../x", .reg⟩] = ([], some "../x") := by
  constructor
  · exact extract_sanitize_amended.1 "/d" [⟨"a", .reg⟩] "/d/a" false (by decide)
  · exact extract_sanitize_amended.2.2.1 "/d" ⟨"../x", .reg⟩ [] (by decide)

theorem firstHit_cands (p e : String) (cands : List String)
    (acc : List (String × String × String)) :
    firstHit (cands.foldr (fun a acc3 => (p, e, a) :: acc3) acc) =
      match cands.findSome? (fun a =>
          if goMatch (p ++ e) a then some (a, runtimeOf e) else none) with
      | some r => some r
      | none => firstHit acc := by
  induction cands with
  | nil => simp
  | cons a t ih =>
    simp only [List.foldr_cons, firstHit, List.findSome?_cons]
    by_cases hg : goMatch (p ++ e) a = true
    · rw [if_pos hg, if_pos hg]
    · rw [if_neg hg, if_neg hg, ih]

theorem firstHit_exts (p : String) (exts cands : List String)
    (acc : List (String × String × String)) :
    firstHit (exts.foldr (fun ex acc2 =>
        cands.foldr (fun a acc3 => (p, ex, a) :: acc3) acc2) acc) =
      match exts.findSome? (fun ex =>
          cands.findSome? (fun a =>
            if goMatch (p ++ ex) a then some (a, runtimeOf ex) else none)) with
      | some r => some r
      | none => firstHit acc := by
  induction exts with
  | nil => simp
  | cons ex t ih =>
    simp only [List.foldr_cons, List.findSome?_cons]
    rw [firstHit_cands, ih]
    cases cands.findSome? (fun a =>
        if goMatch (p ++ ex) a then some (a, runtimeOf ex) else none) with
    | none => rfl
    | some r => rfl

theorem firstHit_allCombos (patterns exts cands : List String) :
    firstHit (allCombos patterns exts cands) =
      patterns.findSome? (fun p =>
        exts.findSome? (fun ex =>
          cands.findSome? (fun a =>
            if goMatch (p ++ ex) a then some (a, runtimeOf ex) else none))) := by
  induction patterns with
  | nil => simp [allCombos, firstHit]
  | cons p t ih =>
    simp only [allCombos, List.foldr_cons, List.findSome?_cons]
    rw [firstHit_exts]
    rw [show t.foldr (fun p acc =>
        exts.foldr (fun ex acc2 =>
          cands.foldr (fun a acc3 => (p, ex, a) :: acc3) acc2) acc) [] =
        allCombos t exts cands from rfl]
    rw [ih]
    cases exts.findSome? (fun ex =>
        cands.findSome? (fun a =>
          if goMatch (p ++ ex) a then some (a, runtimeOf ex) else none)) with
    | none => rfl
    | some r => rfl

/-- C5: `FindAsset` coincides with the spec's flattened priority-ordered
first-match search — patterns `{name}-{version}-{os}-{arch}`,
`{name}-{version}`, `{name}`, each crossed with the fixed extension list,
scanning filtered candidates in input order, first match wins — and on
the spec's concrete example it returns
`("tool-1.0.0-linux-amd64.tar.gz", "exec")`. -/
theorem findAsset_search_order :
    (∀ pfx name version goos arch getAssets,
       FindAsset pfx name version goos arch getAssets =
         FindAssetSpec pfx name version goos arch (getAssets ())) ∧
    FindAsset "p" "tool" "1.0.0" "linux" "amd64"
        (fun _ => ["tool-1.0.0-linux-amd64.tar.gz", "tool-1.0.0.zip", "tool"]) =
      .ok ("tool-1.0.0-linux-amd64.tar.gz", "exec") := by
  constructor
  · intro pfx name version goos arch getAssets
    unfold FindAsset FindAssetSpec
    by_cases he : ((getAssets ()).filter (keepAsset name)).isEmpty = true
    · rw [if_pos he, if_pos he]
    · rw [if_neg he, if_neg he, firstHit_allCombos]
  · rfl

/-- C6: a successfully returned asset name always starts with the
requested plugin name and carries none of the detached-signature
suffixes; and when no candidate passes the filter, `FindAsset` fails
with the no-candidates error. -/
theorem findAsset_filter_sound :
    ∀ pfx name version goos arch getAssets,
      (∀ a rt, FindAsset pfx name version goos arch getAssets = .ok (a, rt) →
         strStarts a name = true ∧ strEnds a ".sha256" = false ∧
         strEnds a ".asc" = false ∧ strEnds a ".sig" = false) ∧
      (((getAssets ()).filter (keepAsset name)).isEmpty = true →
         FindAsset pfx name version goos arch getAssets =
           .error (.noCandidates (pfx ++ "-" ++ name))) := by
  intro pfx name version goos arch getAssets
  constructor
  · intro a rt h
    unfold FindAsset at h
    by_cases he : ((getAssets ()).filter (keepAsset name)).isEmpty = true
    · rw [if_pos he] at h
      exact absurd h (by simp)
    · rw [if_neg he] at h
      dsimp only at h
      cases hm : List.findSome?
          (fun pat => List.findSome? (fun ext => List.findSome?
            (fun asset => if goMatch (pat ++ ext) asset = true
              then some (asset, runtimeOf ext) else none)
            ((getAssets ()).filter (keepAsset name)))
            ["", ".exe", ".zip", ".tar.gz", ".tgz", ".wasm"])
          [name ++ "-" ++ version ++ "-" ++ goos ++ "-" ++ arch,
           name ++ "-" ++ version, name] with
      | none => rw [hm] at h; exact absurd h (by simp)
      | some r =>
        rw [hm] at h
        have hr : r = (a, rt) := by
          cases h; rfl
        subst hr
        obtain ⟨pat, _, h2⟩ := List.exists_of_findSome?_eq_some hm
        obtain ⟨ext, _, h3⟩ := List.exists_of_findSome?_eq_some h2
        obtain ⟨asset, hmem, h4⟩ := List.exists_of_findSome?_eq_some h3
        by_cases hg : goMatch (pat ++ ext) asset = true
        · rw [if_pos hg] at h4
          have ha : asset = a := by cases h4; rfl
          subst ha
          have hk : keepAsset name asset = true := (List.mem_filter.mp hmem).2
          unfold keepAsset at hk
          simp only [Bool.and_eq_true, Bool.not_eq_true'] at hk
          exact ⟨hk.1.1.1, hk.1.1.2, hk.1.2, hk.2⟩
        · rw [if_neg hg] at h4
          exact absurd h4 (by simp)
  · intro he
    unfold FindAsset
    rw [if_pos he]

/-- Witness for C6 at concrete inputs: a successful search and an
empty-filter failure. -/
theorem findAsset_filter_sound_witness :
    (strStarts "tool" "tool" = true ∧ strEnds "tool" ".sha256" = false ∧
     strEnds "tool" ".asc" = false ∧ strEnds "tool" ".sig" = false) ∧
    FindAsset "p" "tool" "1.0.0" "linux" "amd64" (fun _ => ["x.sig"]) =
      .error (.noCandidates "p-tool") := by
  constructor
  · exact (findAsset_filter_sound "p" "tool" "1.0.0" "linux" "amd64"
      (fun _ => ["tool"])).1 "tool" "exec" (by rfl)
  · exact (findAsset_filter_sound "p" "tool" "1.0.0" "linux" "amd64"
      (fun _ => ["x.sig"])).2 (by decide)

theorem contains_iff_mem (l : List String) (s : String) : l.contains s = true ↔ s ∈ l := by
  rw [List.contains_iff_exists_mem_beq]
  constructor
  · rintro ⟨x, hx, hb⟩
    rw [beq_iff_eq] at hb
    exact hb ▸ hx
  · intro hx
    exact ⟨s, hx, by simp⟩

theorem childNameOf_self (root : Path) (n : String) :
    childNameOf root (root ++ [n]) = some n := by
  unfold childNameOf
  rw [if_pos (under_append root [n]), List.drop_left]

theorem mem_childKeys_of_get (fs : FS) (root : Path) (n : String) (e : Entry)
    (h : FS.get fs (root ++ [n]) = some e) : n ∈ childKeys fs root := by
  induction fs with
  | nil => simp [FS.get] at h
  | cons hd t ih =>
    obtain ⟨p, ep⟩ := hd
    simp only [FS.get] at h
    by_cases h1 : p = root ++ [n]
    · subst h1
      simp only [childKeys, childNameOf_self]
      exact List.mem_cons_self n _
    · rw [if_neg h1] at h
      cases hcn : childNameOf root p with
      | some m =>
        simp only [childKeys, hcn]
        exact List.mem_cons_of_mem m (ih h)
      | none =>
        simp only [childKeys, hcn]
        exact ih h

theorem childNameOf_eq_some (root p : Path) (n : String)
    (h : childNameOf root p = some n) : p = root ++ [n] := by
  unfold childNameOf at h
  by_cases hu : under root p = true
  · rw [if_pos hu] at h
    obtain ⟨r, rfl⟩ := (under_iff _ _).mp hu
    rw [List.drop_left] at h
    cases r with
    | nil => exact absurd h (by simp)
    | cons x xs =>
      cases xs with
      | nil => cases h; rfl
      | cons y ys => exact absurd h (by simp)
  · rw [if_neg hu] at h
    cases h

theorem get_ne_none_of_mem_childKeys (fs : FS) (root : Path) (n : String)
    (h : n ∈ childKeys fs root) : FS.get fs (root ++ [n]) ≠ none := by
  induction fs with
  | nil => simp [childKeys] at h
  | cons hd t ih =>
    obtain ⟨p, ep⟩ := hd
    simp only [childKeys] at h
    cases hcn : childNameOf root p with
    | some m =>
      rw [hcn] at h
      simp only [List.mem_cons] at h
      rcases h with rfl | hm
      · have hp : p = root ++ [n] := childNameOf_eq_some root p n hcn
        subst hp
        simp [FS.get]
      · simp only [FS.get]
        by_cases h2 : p = root ++ [n]
        · rw [if_pos h2]; simp
        · rw [if_neg h2]; exact ih hm
    | none =>
      rw [hcn] at h
      simp only [FS.get]
      by_cases h2 : p = root ++ [n]
      · rw [if_pos h2]; simp
      · rw [if_neg h2]; exact ih h

theorem mem_dedupGo_iff (l : List String) :
    ∀ seen n, n ∈ dedupGo seen l ↔ (n ∈ l ∧ n ∉ seen) := by
  induction l with
  | nil => intro seen n; simp [dedupGo]
  | cons s t ih =>
    intro seen n
    unfold dedupGo
    by_cases hc : seen.contains s = true
    · rw [if_pos hc, ih]
      have hs : s ∈ seen := (contains_iff_mem seen s).mp hc
      constructor
      · rintro ⟨h1, h2⟩
        exact ⟨List.mem_cons_of_mem s h1, h2⟩
      · rintro ⟨h1, h2⟩
        rcases List.mem_cons.mp h1 with rfl | h1
        · exact absurd hs h2
        · exact ⟨h1, h2⟩
    · rw [if_neg hc]
      have hs : s ∉ seen := fun hm => hc ((contains_iff_mem seen s).mpr hm)
      simp only [List.mem_cons, ih]
      constructor
      · rintro (rfl | ⟨h1, h2⟩)
        · exact ⟨Or.inl rfl, hs⟩
        · exact ⟨Or.inr h1, fun hn => h2 (Or.inr hn)⟩
      · rintro ⟨h1 | h1, h2⟩
        · exact Or.inl h1
        · by_cases hns : n = s
          · exact Or.inl hns
          · refine Or.inr ⟨h1, fun hn => ?_⟩
            rcases hn with rfl | hn2
            · exact hns rfl
            · exact h2 hn2

theorem mem_insertSorted (s : String) (l : List String) (n : String) :
    n ∈ insertSorted s l ↔ n = s ∨ n ∈ l := by
  induction l with
  | nil => simp [insertSorted]
  | cons x xs ih =>
    unfold insertSorted
    by_cases hc : strLeB s x = true
    · rw [if_pos hc]
      simp [List.mem_cons]
    · rw [if_neg hc]
      simp only [List.mem_cons, ih]
      constructor
      · rintro (rfl | h)
        · exact Or.inr (Or.inl rfl)
        · rcases h with rfl | h
          · exact Or.inl rfl
          · exact Or.inr (Or.inr h)
      · rintro (rfl | rfl | h)
        · exact Or.inr (Or.inl rfl)
        · exact Or.inl rfl
        · exact Or.inr (Or.inr h)

theorem mem_sortStrs (l : List String) (n : String) : n ∈ sortStrs l ↔ n ∈ l := by
  induction l with
  | nil => simp [sortStrs]
  | cons x xs ih =>
    show n ∈ insertSorted x (sortStrs xs) ↔ _
    rw [mem_insertSorted, ih]
    simp [List.mem_cons]

theorem mem_dirChildNames (fs : FS) (root : Path) (n : String) :
    n ∈ dirChildNames fs root ↔ n ∈ childKeys fs root := by
  unfold dirChildNames
  rw [mem_sortStrs, mem_dedupGo_iff]
  simp

/-- On any failure of the `Install` body, the returned filesystem is the
intermediate one with the whole plugin directory removed. -/
theorem install_error_shape (detect : String → String) (proc : Proc) (fl : InstFaults)
    (fetch : Except Unit Info) (now : String) (fs : FS) (root : Path)
    (name version : String) (e : CoreErr)
    (h : (Install detect proc fl fetch now fs root name version).1 = .error (.core e)) :
    (Install detect proc fl fetch now fs root name version).2 =
      FS.removeSubtree (installCore detect proc fl fetch now fs root name version).2
        (root ++ [name]) := by
  unfold Install at h ⊢
  by_cases hctx : fl.ctxCancelled = true
  · rw [if_pos hctx] at h; exact absurd h (by simp)
  · rw [if_neg hctx] at h ⊢
    by_cases hroot : root = []
    · rw [if_pos hroot] at h; exact absurd h (by simp)
    · rw [if_neg hroot] at h ⊢
      dsimp only at h ⊢
      cases hst : fs.get (root ++ [name]) with
      | some x =>
        rw [hst] at h
        exact absurd h (by simp)
      | none =>
        rw [hst] at h
        cases hcore : installCore detect proc fl fetch now fs root name version with
        | mk r fs2 =>
          rw [hcore] at h
          cases r with
          | ok u => exact absurd h (by simp)
          | error ce => rfl

/-- An `Install` against a state where the plugin directory is absent is
never rejected as already installed. -/
theorem install_ne_already_of_absent (detect : String → String) (proc : Proc)
    (fl : InstFaults) (fetch : Except Unit Info) (now : String) (fs : FS) (root : Path)
    (name version : String) (h : fs.get (root ++ [name]) = none) :
    (Install detect proc fl fetch now fs root name version).1 ≠ .error .alreadyInstalled := by
  unfold Install
  by_cases hctx : fl.ctxCancelled = true
  · rw [if_pos hctx]; simp
  · rw [if_neg hctx]
    by_cases hroot : root = []
    · rw [if_pos hroot]; simp
    · rw [if_neg hroot]
      dsimp only
      rw [h]
      cases hcore : installCore detect proc fl fetch now fs root name version with
      | mk r fs2 =>
        cases r with
        | ok u => simp
        | error ce => simp

/-- C1: `Install` is atomic.  If it fails after the already-installed
check (directory creation, fetch, extraction/write, or metadata-write
failure — all the failures covered by the success-flag deferred cleanup),
then after it returns nothing exists at or below the plugin directory
`<root>/<name>`, the name is not among the root's directory entries (so
`List` cannot observe it), and a subsequent `Install` of the same name is
never rejected as already installed. -/
theorem install_atomic :
    ∀ detect proc fl fetch now fs root name version e,
      (Install detect proc fl fetch now fs root name version).1 = .error (.core e) →
      (∀ p, under (root ++ [name]) p = true →
         FS.get (Install detect proc fl fetch now fs root name version).2 p = none) ∧
      name ∉ dirChildNames (Install detect proc fl fetch now fs root name version).2 root ∧
      (∀ detect2 proc2 fl2 fetch2 now2 version2,
         (Install detect2 proc2 fl2 fetch2 now2
             (Install detect proc fl fetch now fs root name version).2
             root name version2).1 ≠ .error .alreadyInstalled) := by
  intro detect proc fl fetch now fs root name version e h
  have hshape := install_error_shape detect proc fl fetch now fs root name version e h
  have hnone : ∀ p, under (root ++ [name]) p = true →
      FS.get (Install detect proc fl fetch now fs root name version).2 p = none := by
    intro p hp
    rw [hshape, get_removeSubtree, if_pos hp]
  refine ⟨hnone, ?_, ?_⟩
  · intro hmem
    have hk := (mem_dirChildNames _ _ _).mp hmem
    exact get_ne_none_of_mem_childKeys _ root name hk (hnone (root ++ [name]) (under_refl _))
  · intro detect2 proc2 fl2 fetch2 now2 version2
    exact install_ne_already_of_absent detect2 proc2 fl2 fetch2 now2 _ root name version2
      (hnone (root ++ [name]) (under_refl _))

/-- Witness for C1: a concrete install whose fetch fails, leaving no
trace of the plugin directory. -/
theorem install_atomic_witness :
    (Install (fun _ => "") (fun g _ _ => (.ok none, g))
        ⟨false, false, ⟨false, false, false⟩, false⟩ (.error ()) "T" [] ["r"] "t" "1").1 =
      .error (.core .fetchFail) ∧
    FS.get (Install (fun _ => "") (fun g _ _ => (.ok none, g))
        ⟨false, false, ⟨false, false, false⟩, false⟩ (.error ()) "T" [] ["r"] "t" "1").2
      ["r", "t"] = none ∧
    "t" ∉ dirChildNames (Install (fun _ => "") (fun g _ _ => (.ok none, g))
        ⟨false, false, ⟨false, false, false⟩, false⟩ (.error ()) "T" [] ["r"] "t" "1").2
      ["r"] := by
  have h : (Install (fun _ => "") (fun g _ _ => (.ok none, g))
      ⟨false, false, ⟨false, false, false⟩, false⟩ (.error ()) "T" [] ["r"] "t" "1").1 =
      .error (.core .fetchFail) := by rfl
  have hmain := install_atomic (fun _ => "") (fun g _ _ => (.ok none, g))
    ⟨false, false, ⟨false, false, false⟩, false⟩ (.error ()) "T" [] ["r"] "t" "1" .fetchFail h
  exact ⟨h, hmain.1 ["r", "t"] (by decide), hmain.2.1⟩

theorem mkdirAllE_ok (fs : FS) (p : Path) (fail : Bool) (fs1 : FS)
    (h : mkdirAllE fs p fail = .ok fs1) : fs1 = mkdirAllF fs p := by
  unfold mkdirAllE at h
  by_cases hf : fail = true
  · rw [if_pos hf] at h; cases h
  · rw [if_neg hf] at h
    by_cases hok : mkdirOk fs p = true
    · rw [if_pos hok] at h; cases h; rfl
    · rw [if_neg hok] at h; cases h

/-- A successful `Install` leaves the state its body produced, and the
body succeeded. -/
theorem install_ok_shape (detect : String → String) (proc : Proc) (fl : InstFaults)
    (fetch : Except Unit Info) (now : String) (fs : FS) (root : Path)
    (name version : String)
    (h : (Install detect proc fl fetch now fs root name version).1 = .ok ()) :
    (Install detect proc fl fetch now fs root name version).2 =
      (installCore detect proc fl fetch now fs root name version).2 ∧
    (installCore detect proc fl fetch now fs root name version).1 = .ok () := by
  unfold Install at h ⊢
  by_cases hctx : fl.ctxCancelled = true
  · rw [if_pos hctx] at h; exact absurd h (by simp)
  · rw [if_neg hctx] at h ⊢
    by_cases hroot : root = []
    · rw [if_pos hroot] at h; exact absurd h (by simp)
    · rw [if_neg hroot] at h ⊢
      dsimp only at h ⊢
      cases hst : fs.get (root ++ [name]) with
      | some x =>
        rw [hst] at h
        exact absurd h (by simp)
      | none =>
        rw [hst] at h
        cases hcore : installCore detect proc fl fetch now fs root name version with
        | mk r fs2 =>
          rw [hcore] at h
          cases r with
          | ok u => exact ⟨rfl, rfl⟩
          | error ce => exact absurd h (by simp)

/-- A successful `Install` body: the filesystem is the write-files result
with the stamped record set at the metadata path, and the write-files
stage succeeded. -/
theorem installCore_ok_shape (detect : String → String) (proc : Proc) (fl : InstFaults)
    (now : String) (fs : FS) (root : Path) (name version : String) (info : Info)
    (h : (installCore detect proc fl (.ok info) now fs root name version).1 = .ok ()) :
    (installCore detect proc fl (.ok info) now fs root name version).2 =
      FS.set (writePluginFiles detect proc fl.wf (mkdirAllF fs (root ++ [name]))
          (root ++ [name]) info).2
        ((root ++ [name]) ++ ["metadata.json"])
        (.file (.infoJson (stampInstall info version now))) ∧
    (writePluginFiles detect proc fl.wf (mkdirAllF fs (root ++ [name]))
        (root ++ [name]) info).1 = .ok () := by
  unfold installCore at h ⊢
  dsimp only at h ⊢
  cases hmk : mkdirAllE fs (root ++ [name]) fl.mkdirFail with
  | error u =>
    rw [hmk] at h
    exact absurd h (by simp)
  | ok fs1 =>
    rw [hmk] at h
    have hfs1 : fs1 = mkdirAllF fs (root ++ [name]) := mkdirAllE_ok _ _ _ _ hmk
    subst hfs1
    dsimp only at h ⊢
    cases hwpf : writePluginFiles detect proc fl.wf (mkdirAllF fs (root ++ [name]))
        (root ++ [name]) info with
    | mk wr fs2 =>
      rw [hwpf] at h
      cases wr with
      | error u => exact absurd h (by simp)
      | ok u =>
        dsimp only at h ⊢
        by_cases hmw : fl.metaWriteFail = true
        · rw [if_pos hmw] at h
          exact absurd h (by simp)
        · rw [if_neg hmw] at h ⊢
          exact ⟨rfl, rfl⟩

/-- C9: the record persisted by a successful `Install` carries the
caller-supplied version string verbatim (a literal `"latest"` or `""` is
stored as such) and a metadata map holding exactly the `"installed"`
timestamp key, discarding whatever metadata the store attached. -/
theorem install_metadata_fields :
    ∀ detect proc fl now fs root name version info,
      (Install detect proc fl (.ok info) now fs root name version).1 = .ok () →
      ∃ r, FS.get (Install detect proc fl (.ok info) now fs root name version).2
             ((root ++ [name]) ++ ["metadata.json"]) = some (.file (.infoJson r)) ∧
           r.version = version ∧ r.metadata = [("installed", now)] := by
  intro detect proc fl now fs root name version info h
  obtain ⟨h2, hcore⟩ := install_ok_shape detect proc fl (.ok info) now fs root name version h
  rw [h2, (installCore_ok_shape detect proc fl now fs root name version info hcore).1]
  exact ⟨stampInstall info version now, get_set_self _ _ _, rfl, rfl⟩

/-- Witness for C9 at a concrete successful install. -/
theorem install_metadata_fields_witness :
    ∃ r, FS.get (Install (fun _ => "") (fun g _ _ => (.ok none, g))
            ⟨false, false, ⟨false, false, false⟩, false⟩
            (.ok ⟨"t", "bin", "9", "", "", "", [], "", .str "hello"⟩) "T" [] ["r"] "t" "1").2
           ((["r"] ++ ["t"]) ++ ["metadata.json"]) = some (.file (.infoJson r)) ∧
         r.version = "1" ∧ r.metadata = [("installed", "T")] :=
  install_metadata_fields (fun _ => "") (fun g _ _ => (.ok none, g))
    ⟨false, false, ⟨false, false, false⟩, false⟩ "T" [] ["r"] "t" "1"
    ⟨"t", "bin", "9", "", "", "", [], "", .str "hello"⟩ (by rfl)

/-- The state a successful non-archive `writePluginFiles` run produces:
directories ensured, then the plugin file created and filled with the
content, at `dir/<info.Name>/<info.FileName>`. -/
theorem wpf_ok_nonarchive (detect : String → String) (proc : Proc) (wf : WfFaults)
    (fs : FS) (dir : Path) (info : Info) (s : String)
    (hcs : contentString info.content = some s)
    (hct : fileProcessorMap.contains (detect s) = false)
    (h : (writePluginFiles detect proc wf fs dir info).1 = .ok ()) :
    (writePluginFiles detect proc wf fs dir info).2 =
      FS.set (FS.set (mkdirAllF fs (dir ++ [info.name]))
          ((dir ++ [info.name]) ++ [info.fileName]) (.file (.otherData "")))
        ((dir ++ [info.name]) ++ [info.fileName]) (.file (.otherData s)) := by
  unfold writePluginFiles at h ⊢
  dsimp only at h ⊢
  cases hmk : mkdirAllE fs (dir ++ [info.name]) wf.mkdirFail with
  | error u =>
    rw [hmk] at h
    exact absurd h (by simp)
  | ok fs1 =>
    rw [hmk] at h
    have hfs1 : fs1 = mkdirAllF fs (dir ++ [info.name]) := mkdirAllE_ok _ _ _ _ hmk
    subst hfs1
    rw [hcs] at h ⊢
    dsimp only at h ⊢
    by_cases hof : wf.openFail = true
    · rw [if_pos hof] at h
      exact absurd h (by simp)
    · rw [if_neg hof] at h ⊢
      rw [hct] at h ⊢
      rw [if_neg Bool.false_ne_true] at h ⊢
      by_cases hcf : wf.copyFail = true
      · rw [if_pos hcf] at h
        exact absurd h (by simp)
      · rw [if_neg hcf] at h ⊢

/-- C3 counterexample: a concrete successful install of verbatim content
(name "t", file name "bin") writes nothing at `<root>/<name>/<fileName>`
(`["r","t","bin"]`); the content actually lands one level deeper, at
`<root>/<name>/<info.Name>/<fileName>` (`["r","t","t","bin"]`), because
`writePluginFiles` joins the record name onto the already name-specific
directory. -/
theorem install_path_counterexample :
    (Install (fun _ => "") (fun g _ _ => (.ok none, g))
        ⟨false, false, ⟨false, false, false⟩, false⟩
        (.ok ⟨"t", "bin", "9", "", "", "", [], "", .str "hello"⟩) "T" [] ["r"] "t" "1").1 =
      .ok () ∧
    FS.get (Install (fun _ => "") (fun g _ _ => (.ok none, g))
        ⟨false, false, ⟨false, false, false⟩, false⟩
        (.ok ⟨"t", "bin", "9", "", "", "", [], "", .str "hello"⟩) "T" [] ["r"] "t" "1").2
      ["r", "t", "bin"] = none ∧
    FS.get (Install (fun _ => "") (fun g _ _ => (.ok none, g))
        ⟨false, false, ⟨false, false, false⟩, false⟩
        (.ok ⟨"t", "bin", "9", "", "", "", [], "", .str "hello"⟩) "T" [] ["r"] "t" "1").2
      ["r", "t", "t", "bin"] = some (.file (.otherData "hello")) :=
  ⟨rfl, rfl, rfl⟩

/-- C3 (amended): for every successful `Install` whose fetched content is
not an archive (copied verbatim), the executable content is written at
`<pluginRoot>/<name>/<info.Name>/<fileName>` — one level deeper than the
claim's `<pluginRoot>/<name>/<fileName>` — and the record itself is at
`<pluginRoot>/<name>/metadata.json`. -/
theorem install_writes_nested :
    ∀ detect proc fl now fs root name version info s,
      contentString info.content = some s →
      fileProcessorMap.contains (detect s) = false →
      (Install detect proc fl (.ok info) now fs root name version).1 = .ok () →
      FS.get (Install detect proc fl (.ok info) now fs root name version).2
          (((root ++ [name]) ++ [info.name]) ++ [info.fileName]) =
        some (.file (.otherData s)) ∧
      (∃ r, FS.get (Install detect proc fl (.ok info) now fs root name version).2
          ((root ++ [name]) ++ ["metadata.json"]) = some (.file (.infoJson r))) := by
  intro detect proc fl now fs root name version info s hcs hct h
  obtain ⟨h2, hcore⟩ := install_ok_shape detect proc fl (.ok info) now fs root name version h
  obtain ⟨h3, hwpfok⟩ := installCore_ok_shape detect proc fl now fs root name version info hcore
  rw [h2, h3]
  have hne : ((root ++ [name]) ++ [info.name]) ++ [info.fileName] ≠
      (root ++ [name]) ++ ["metadata.json"] := by
    intro he
    have hl := congrArg List.length he
    simp [List.length_append] at hl
  constructor
  · rw [get_set_ne _ _ _ _ hne,
      wpf_ok_nonarchive detect proc fl.wf (mkdirAllF fs (root ++ [name]))
        (root ++ [name]) info s hcs hct hwpfok]
    exact get_set_self _ _ _
  · exact ⟨stampInstall info version now, get_set_self _ _ _⟩

/-- Witness for the amended C3 theorem at a concrete install. -/
theorem install_writes_nested_witness :
    FS.get (Install (fun _ => "") (fun g _ _ => (.ok none, g))
        ⟨false, false, ⟨false, false, false⟩, false⟩
        (.ok ⟨"t", "bin", "9", "", "", "", [], "", .str "hello"⟩) "T" [] ["r"] "t" "1").2
      (((["r"] ++ ["t"]) ++ ["t"]) ++ ["bin"]) = some (.file (.otherData "hello")) ∧
    (∃ r, FS.get (Install (fun _ => "") (fun g _ _ => (.ok none, g))
        ⟨false, false, ⟨false, false, false⟩, false⟩
        (.ok ⟨"t", "bin", "9", "", "", "", [], "", .str "hello"⟩) "T" [] ["r"] "t" "1").2
      ((["r"] ++ ["t"]) ++ ["metadata.json"]) = some (.file (.infoJson r))) :=
  install_writes_nested (fun _ => "") (fun g _ _ => (.ok none, g))
    ⟨false, false, ⟨false, false, false⟩, false⟩ "T" [] ["r"] "t" "1"
    ⟨"t", "bin", "9", "", "", "", [], "", .str "hello"⟩ "hello" rfl (by decide) (by rfl)

/-- C8: with a readable record, `Enable` rewrites it with status
`"enabled"` and `Disable` with `"disabled"`, leaving every other record
field (the record is exactly the old one with only `status` replaced)
and every other path unchanged; with a missing or unreadable record both
fail and leave the on-disk state unchanged. -/
theorem enable_disable_record :
    ∀ fs root name,
      (∀ i, FS.get fs (root ++ [name, "metadata.json"]) = some (.file (.infoJson i)) →
        Enable false fs root name =
          (.ok (), FS.set fs (root ++ [name, "metadata.json"])
            (.file (.infoJson { i with status := "enabled" }))) ∧
        Disable false fs root name =
          (.ok (), FS.set fs (root ++ [name, "metadata.json"])
            (.file (.infoJson { i with status := "disabled" }))) ∧
        (∀ q, q ≠ root ++ [name, "metadata.json"] →
           FS.get (Enable false fs root name).2 q = fs.get q ∧
           FS.get (Disable false fs root name).2 q = fs.get q)) ∧
      ((∀ j, FS.get fs (root ++ [name, "metadata.json"]) ≠ some (.file (.infoJson j))) →
        (∃ e, Enable false fs root name = (.error e, fs)) ∧
        (∃ e2, Disable false fs root name = (.error e2, fs))) := by
  intro fs root name
  constructor
  · intro i hi
    have he : Enable false fs root name =
        (.ok (), FS.set fs (root ++ [name, "metadata.json"])
          (.file (.infoJson { i with status := "enabled" }))) := by
      unfold Enable
      rw [if_neg Bool.false_ne_true]
      dsimp only
      rw [hi]
      rfl
    have hd : Disable false fs root name =
        (.ok (), FS.set fs (root ++ [name, "metadata.json"])
          (.file (.infoJson { i with status := "disabled" }))) := by
      unfold Disable
      rw [if_neg Bool.false_ne_true]
      dsimp only
      rw [hi]
      rfl
    refine ⟨he, hd, ?_⟩
    intro q hq
    rw [he, hd]
    exact ⟨get_set_ne _ _ _ _ hq, get_set_ne _ _ _ _ hq⟩
  · intro hj
    constructor
    · unfold Enable
      rw [if_neg Bool.false_ne_true]
      dsimp only
      cases hg : fs.get (root ++ [name, "metadata.json"]) with
      | none => exact ⟨.readFail, rfl⟩
      | some e =>
        cases e with
        | dir => exact ⟨.readFail, rfl⟩
        | file c =>
          cases c with
          | infoJson i => exact absurd hg (hj i)
          | otherData s2 => exact ⟨.parseFail, rfl⟩
    · unfold Disable
      rw [if_neg Bool.false_ne_true]
      dsimp only
      cases hg : fs.get (root ++ [name, "metadata.json"]) with
      | none => exact ⟨.readFail, rfl⟩
      | some e =>
        cases e with
        | dir => exact ⟨.readFail, rfl⟩
        | file c =>
          cases c with
          | infoJson i => exact absurd hg (hj i)
          | otherData s2 => exact ⟨.parseFail, rfl⟩

/-- Witness for C8: a concrete enable of a disabled record, and a
concrete failure on an empty filesystem. -/
theorem enable_disable_record_witness :
    Enable false [(["r", "t", "metadata.json"],
        Entry.file (.infoJson ⟨"t", "b", "1", "", "", "", [], "disabled", .unsupported⟩))]
        ["r"] "t" =
      (.ok (), FS.set [(["r", "t", "metadata.json"],
          Entry.file (.infoJson ⟨"t", "b", "1", "", "", "", [], "disabled", .unsupported⟩))]
        (["r"] ++ ["t", "metadata.json"])
        (.file (.infoJson ⟨"t", "b", "1", "", "", "", [], "enabled", .unsupported⟩))) ∧
    (∃ e, Enable false [] ["r"] "t" = (.error e, [])) := by
  constructor
  · exact ((enable_disable_record
      [(["r", "t", "metadata.json"],
        Entry.file (.infoJson ⟨"t", "b", "1", "", "", "", [], "disabled", .unsupported⟩))]
      ["r"] "t").1 ⟨"t", "b", "1", "", "", "", [], "disabled", .unsupported⟩ (by rfl)).1
  · exact ((enable_disable_record [] ["r"] "t").2
      (by intro j h; exact Option.noConfusion h)).1

theorem listGo_ok_of_all (fs : FS) (root : Path) :
    ∀ l, (∀ n ∈ l, fs.get (root ++ [n]) = some .dir →
        (fs.get (root ++ [n, "metadata.json"]) = none ∨
         ∃ i, fs.get (root ++ [n, "metadata.json"]) = some (.file (.infoJson i)))) →
      listGo fs root l = .ok (l.filterMap (goodInfo fs root)) := by
  intro l
  induction l with
  | nil => intro h; rfl
  | cons n rest ih =>
    intro h
    have hn := h n (List.mem_cons_self n rest)
    have hrest := ih (fun m hm => h m (List.mem_cons_of_mem n hm))
    unfold listGo
    simp only [List.filterMap_cons]
    cases hg : fs.get (root ++ [n]) with
    | none =>
      rw [hrest, show goodInfo fs root n = none from by unfold goodInfo; rw [hg]]
    | some e =>
      cases e with
      | file c =>
        rw [hrest, show goodInfo fs root n = none from by unfold goodInfo; rw [hg]]
      | dir =>
        rcases hn hg with hnone | ⟨i, hi⟩
        · rw [hnone, hrest,
            show goodInfo fs root n = none from by unfold goodInfo; rw [hg, hnone]]
        · rw [hi, hrest,
            show goodInfo fs root n = some i from by unfold goodInfo; rw [hg, hi]]
          rfl

theorem listGo_error_of_mem (fs : FS) (root : Path) :
    ∀ l n, n ∈ l → fs.get (root ++ [n]) = some .dir →
      (∃ s, fs.get (root ++ [n, "metadata.json"]) = some (.file (.otherData s))) →
      ∃ e, listGo fs root l = .error e := by
  intro l
  induction l with
  | nil => intro n h; cases h
  | cons m rest ih =>
    rintro n hmem hdir ⟨s, hs⟩
    unfold listGo
    rcases List.mem_cons.mp hmem with rfl | hm
    · rw [hdir, hs]
      exact ⟨.parseFail n, rfl⟩
    · cases hg : fs.get (root ++ [m]) with
      | none => exact ih n hm hdir ⟨s, hs⟩
      | some e =>
        cases e with
        | file c => exact ih n hm hdir ⟨s, hs⟩
        | dir =>
          cases hg2 : fs.get (root ++ [m, "metadata.json"]) with
          | none => exact ih n hm hdir ⟨s, hs⟩
          | some e2 =>
            cases e2 with
            | dir => exact ⟨.readMetaFail m, rfl⟩
            | file c2 =>
              cases c2 with
              | otherData s3 => exact ⟨.parseFail m, rfl⟩
              | infoJson i =>
                obtain ⟨e3, he3⟩ := ih n hm hdir ⟨s, hs⟩
                rw [he3]
                exact ⟨e3, rfl⟩

/-- C7: `List` returns the empty collection (not an error) when the
plugin root does not exist; when every subdirectory either lacks its
record file or carries a well-formed one, it succeeds and reports
exactly the well-formed records (so a subdirectory without
`metadata.json` is silently skipped); and any subdirectory whose record
file exists but cannot be parsed fails the whole call. -/
theorem list_behavior :
    ∀ fs root,
      (FS.get fs root = none → ListM false fs root = .ok []) ∧
      (FS.get fs root = some .dir →
        (∀ n, n ∈ dirChildNames fs root → fs.get (root ++ [n]) = some .dir →
          (fs.get (root ++ [n, "metadata.json"]) = none ∨
           ∃ i, fs.get (root ++ [n, "metadata.json"]) = some (.file (.infoJson i)))) →
        ListM false fs root = .ok ((dirChildNames fs root).filterMap (goodInfo fs root))) ∧
      (FS.get fs root = some .dir →
        ∀ n s, fs.get (root ++ [n]) = some .dir →
          fs.get (root ++ [n, "metadata.json"]) = some (.file (.otherData s)) →
          ∃ e, ListM false fs root = .error e) := by
  intro fs root
  refine ⟨?_, ?_, ?_⟩
  · intro h
    unfold ListM
    rw [if_neg Bool.false_ne_true, h]
  · intro hroot hall
    unfold ListM
    rw [if_neg Bool.false_ne_true, hroot]
    exact listGo_ok_of_all fs root _ hall
  · intro hroot n s hdir hmeta
    unfold ListM
    rw [if_neg Bool.false_ne_true, hroot]
    have hmem : n ∈ dirChildNames fs root :=
      (mem_dirChildNames fs root n).mpr (mem_childKeys_of_get fs root n _ hdir)
    exact listGo_error_of_mem fs root _ n hmem hdir ⟨s, hmeta⟩

/-- Witness for C7: an absent root lists empty; a root with one recorded
plugin and one record-less subdirectory lists exactly the one record; a
malformed record fails the call. -/
theorem list_behavior_witness :
    ListM false [] ["r"] = .ok [] ∧
    ListM false [(["r"], .dir), (["r", "a"], .dir),
        (["r", "a", "metadata.json"],
         Entry.file (.infoJson ⟨"a", "b", "1", "", "", "", [], "enabled", .unsupported⟩)),
        (["r", "b"], .dir)] ["r"] =
      .ok [⟨"a", "b", "1", "", "", "", [], "enabled", .unsupported⟩] ∧
    (∃ e, ListM false [(["r"], .dir), (["r", "a"], .dir),
        (["r", "a", "metadata.json"], Entry.file (.otherData "x"))] ["r"] = .error e) := by
  refine ⟨(list_behavior [] ["r"]).1 rfl, ?_, ?_⟩
  · exact (list_behavior [(["r"], .dir), (["r", "a"], .dir),
        (["r", "a", "metadata.json"],
         Entry.file (.infoJson ⟨"a", "b", "1", "", "", "", [], "enabled", .unsupported⟩)),
        (["r", "b"], .dir)] ["r"]).2.1 rfl (by
      intro n hn hd
      rw [show dirChildNames [(["r"], .dir), (["r", "a"], .dir),
            (["r", "a", "metadata.json"],
             Entry.file (.infoJson ⟨"a", "b", "1", "", "", "", [], "enabled", .unsupported⟩)),
            (["r", "b"], .dir)] ["r"] = ["a", "b"] from by decide] at hn
      simp only [List.mem_cons, List.not_mem_nil, or_false] at hn
      rcases hn with rfl | rfl
      · exact Or.inr ⟨⟨"a", "b", "1", "", "", "", [], "enabled", .unsupported⟩, rfl⟩
      · exact Or.inl rfl)
  · exact (list_behavior [(["r"], .dir), (["r", "a"], .dir),
        (["r", "a", "metadata.json"], Entry.file (.otherData "x"))] ["r"]).2.2 rfl
      "a" "x" rfl rfl

theorem under_trans (a b c : Path) (h1 : under a b = true) (h2 : under b c = true) :
    under a c = true := by
  obtain ⟨r1, rfl⟩ := (under_iff _ _).mp h1
  obtain ⟨r2, rfl⟩ := (under_iff _ _).mp h2
  exact (under_iff _ _).mpr ⟨r1 ++ r2, by rw [List.append_assoc]⟩

theorem parallel_frame (a b q : Path) (hab : under a b = false) (hba : under b a = false)
    (hq : under a q = true) : under b q = false ∧ under q b = false := by
  constructor
  · cases hx : under b q with
    | false => rfl
    | true =>
      rcases under_both a b q hq hx with hc | hc
      · rw [hab] at hc; exact Bool.noConfusion hc
      · rw [hba] at hc; exact Bool.noConfusion hc
  · cases hx : under q b with
    | false => rfl
    | true =>
      have hc := under_trans a q b hq hx
      rw [hab] at hc
      exact Bool.noConfusion hc

theorem charsPrefix_refl (l : List Char) : l.isPrefixOf l = true := by
  induction l with
  | nil => rfl
  | cons a t ih =>
    simp only [List.isPrefixOf, beq_self_eq_true, Bool.true_and]
    exact ih

theorem strStarts_refl (s : String) : strStarts s s = true :=
  charsPrefix_refl s.data

theorem under_dropLast (l : Path) : under l.dropLast l = true := by
  induction l with
  | nil => rfl
  | cons a t ih =>
    cases t with
    | nil => rfl
    | cons b t2 =>
      rw [List.dropLast_cons₂]
      simp only [under, List.isPrefixOf, beq_self_eq_true, Bool.true_and]
      exact ih

theorem under_dropLast_of_strExtends (d p : Path) (h : strExtends d p = true) :
    under d.dropLast p = true := by
  unfold strExtends at h
  cases hl : d.getLast? with
  | none =>
    have hd : d = [] := List.getLast?_eq_none_iff.mp hl
    subst hd
    exact (under_iff _ _).mpr ⟨p, rfl⟩
  | some last =>
    rw [hl] at h
    simp only [Bool.and_eq_true] at h
    exact h.1

theorem strExtends_concat (dir : Path) (nm : String) (rest : Path) :
    strExtends (dir ++ [nm]) ((dir ++ [nm]) ++ rest) = true := by
  unfold strExtends
  rw [List.getLast?_concat, List.dropLast_concat]
  simp only [Bool.and_eq_true]
  constructor
  · show under dir ((dir ++ [nm]) ++ rest) = true
    rw [List.append_assoc]
    exact under_append _ _
  · rw [show (dir ++ [nm]).length - 1 = dir.length from by simp,
      List.append_assoc, List.drop_left]
    exact strStarts_refl nm

/-- Frame property: `writePluginFiles` leaves a path untouched whenever
it is neither a prefix of the plugin-specific directory (a directory
`MkdirAll` may ensure) nor a string-extension of it, provided the
processor chain's writes are confined to ancestor prefixes of the
directory it is handed (parent-directory creation) and to paths that
extend that directory as a string — exactly the write set the
`strings.HasPrefix`-sanitized archive stages allow, sibling-extension
escapes included. -/
theorem wpf_frame (detect : String → String) (proc : Proc) (wf : WfFaults)
    (fs : FS) (dir : Path) (info : Info) (q : Path)
    (hproc : ∀ g d s pp, FS.get ((proc g d s).2) pp ≠ FS.get g pp →
       under pp d.dropLast = true ∨ strExtends d pp = true)
    (h1 : under q (dir ++ [info.name]) = false)
    (h3 : strExtends (dir ++ [info.name]) q = false) :
    FS.get (writePluginFiles detect proc wf fs dir info).2 q = fs.get q := by
  have hbin : ((dir ++ [info.name]) ++ [info.fileName]) ≠ q := by
    intro he
    have ht := strExtends_concat dir info.name [info.fileName]
    rw [he, h3] at ht
    exact Bool.noConfusion ht
  unfold writePluginFiles
  dsimp only
  cases hmk : mkdirAllE fs (dir ++ [info.name]) wf.mkdirFail with
  | error u => rfl
  | ok fs1 =>
    have hfs1 : FS.get fs1 q = fs.get q := by
      rw [mkdirAllE_ok _ _ _ _ hmk]
      exact get_mkdirAllF_ne fs _ q h1
    cases hcs : contentString info.content with
    | none => exact hfs1
    | some s =>
      dsimp only
      by_cases hof : wf.openFail = true
      · rw [if_pos hof]; exact hfs1
      · rw [if_neg hof]
        have hfs2 : FS.get (FS.set fs1 ((dir ++ [info.name]) ++ [info.fileName])
            (.file (.otherData ""))) q = fs.get q := by
          rw [get_set_ne _ _ _ _ (fun hh => hbin hh.symm)]
          exact hfs1
        by_cases hct : fileProcessorMap.contains (detect s) = true
        · rw [if_pos hct]
          cases hpr : proc (FS.set fs1 ((dir ++ [info.name]) ++ [info.fileName])
              (.file (.otherData ""))) (dir ++ [info.name]) s with
          | mk pres fs3 =>
            have hfs3 : FS.get fs3 q = fs.get q := by
              have hh : FS.get ((proc (FS.set fs1 ((dir ++ [info.name]) ++ [info.fileName])
                  (.file (.otherData ""))) (dir ++ [info.name]) s).2) q =
                  FS.get (FS.set fs1 ((dir ++ [info.name]) ++ [info.fileName])
                    (.file (.otherData ""))) q := by
                by_contra hne
                rcases hproc _ (dir ++ [info.name]) s q hne with hc | hc
                · rw [List.dropLast_concat] at hc
                  have hu := under_trans q dir (dir ++ [info.name]) hc (under_append dir _)
                  rw [h1] at hu
                  exact Bool.noConfusion hu
                · rw [h3] at hc
                  exact Bool.noConfusion hc
              rw [hpr] at hh
              exact hh.trans hfs2
            cases pres with
            | error u => exact hfs3
            | ok o =>
              cases o with
              | none => exact hfs3
              | some s2 =>
                dsimp only
                by_cases hcf : wf.copyFail = true
                · rw [if_pos hcf]; exact hfs3
                · rw [if_neg hcf]
                  rw [get_set_ne _ _ _ _ (fun hh => hbin hh.symm)]
                  exact hfs3
        · rw [if_neg hct]
          by_cases hcf : wf.copyFail = true
          · rw [if_pos hcf]; exact hfs2
          · rw [if_neg hcf]
            rw [get_set_ne _ _ _ _ (fun hh => hbin hh.symm)]
            exact hfs2

/-- On a staging failure or a failed second rename with successful
restore, the `Upgrade` core leaves every path at or below the live
plugin directory exactly as it was. -/
theorem upgradeCore_frame (detect : String → String) (proc : Proc) (uf : UpFaults)
    (fetch : Except Unit Info) (now : String) (fs : FS) (root : Path)
    (name version : String) (cur : Info) (e : UErr) (p : Path)
    (hproc : ∀ g d s pp, FS.get ((proc g d s).2) pp ≠ FS.get g pp →
       under pp d.dropLast = true ∨ strExtends d pp = true)
    (hres : (upgradeCore detect proc uf fetch now fs root name version cur).1 = .error e)
    (hel : e = .mkdirFail ∨ e = .fetchFail ∨ e = .writeFilesFail ∨ e = .metaWriteFail ∨
      (e = .rename2Fail ∧ uf.restoreFail = false))
    (hp : under (root ++ [name]) p = true) :
    FS.get (upgradeCore detect proc uf fetch now fs root name version cur).2 p = fs.get p := by
  have hne1 : name ≠ name ++ ".upgrade" := str_append_ne name ".upgrade" (by decide)
  have hne2 : name ≠ name ++ ".backup" := str_append_ne name ".backup" (by decide)
  have hpt1 : under (root ++ [name]) (root ++ [name ++ ".upgrade"]) = false :=
    parallel_single root name (name ++ ".upgrade") hne1
  have hpt2 : under (root ++ [name ++ ".upgrade"]) (root ++ [name]) = false :=
    parallel_single root (name ++ ".upgrade") name (Ne.symm hne1)
  have hpb1 : under (root ++ [name]) (root ++ [name ++ ".backup"]) = false :=
    parallel_single root name (name ++ ".backup") hne2
  have hpb2 : under (root ++ [name ++ ".backup"]) (root ++ [name]) = false :=
    parallel_single root (name ++ ".backup") name (Ne.symm hne2)
  have htp := parallel_frame (root ++ [name]) (root ++ [name ++ ".upgrade"]) p hpt1 hpt2 hp
  unfold upgradeCore at hres ⊢
  dsimp only at hres ⊢
  cases hmk : mkdirAllE fs (root ++ [name ++ ".upgrade"]) uf.mkdirTmpFail with
  | error u => rfl
  | ok fs1 =>
    rw [hmk] at hres
    dsimp only at hres ⊢
    have hfs1 : FS.get fs1 p = fs.get p := by
      rw [mkdirAllE_ok _ _ _ _ hmk]
      refine get_mkdirAllF_ne fs _ p ?_
      cases hx : under p (root ++ [name ++ ".upgrade"]) with
      | false => rfl
      | true =>
        have hc := under_trans (root ++ [name]) p (root ++ [name ++ ".upgrade"]) hp hx
        rw [hpt1] at hc
        exact Bool.noConfusion hc
    cases fetch with
    | error u => exact hfs1
    | ok newInfo =>
      dsimp only at hres ⊢
      have hplug1 : under (root ++ [name])
          ((root ++ [name ++ ".upgrade"]) ++ [newInfo.name]) = false := by
        rw [List.append_assoc]
        exact under_ne_single root name (name ++ ".upgrade") hne1 [newInfo.name]
      have hplug2 : under ((root ++ [name ++ ".upgrade"]) ++ [newInfo.name])
          (root ++ [name]) = false := by
        cases hx : under ((root ++ [name ++ ".upgrade"]) ++ [newInfo.name])
            (root ++ [name]) with
        | false => rfl
        | true =>
          have hc := under_trans (root ++ [name ++ ".upgrade"])
            ((root ++ [name ++ ".upgrade"]) ++ [newInfo.name]) (root ++ [name])
            (under_append _ _) hx
          rw [hpt2] at hc
          exact Bool.noConfusion hc
      have hfr := parallel_frame (root ++ [name])
        ((root ++ [name ++ ".upgrade"]) ++ [newInfo.name]) p hplug1 hplug2 hp
      have hse : strExtends ((root ++ [name ++ ".upgrade"]) ++ [newInfo.name]) p = false := by
        cases hx : strExtends ((root ++ [name ++ ".upgrade"]) ++ [newInfo.name]) p with
        | false => rfl
        | true =>
          have hu := under_dropLast_of_strExtends _ _ hx
          rw [List.dropLast_concat] at hu
          rw [htp.1] at hu
          exact Bool.noConfusion hu
      cases hwpf : writePluginFiles detect proc uf.wf fs1 (root ++ [name ++ ".upgrade"])
          newInfo with
      | mk wr fs2 =>
        rw [hwpf] at hres
        have hfs2 : FS.get fs2 p = fs.get p := by
          have hh := wpf_frame detect proc uf.wf fs1 (root ++ [name ++ ".upgrade"])
            newInfo p hproc hfr.2 hse
          rw [hwpf] at hh
          exact hh.trans hfs1
        cases wr with
        | error u => exact hfs2
        | ok u =>
          dsimp only at hres ⊢
          by_cases hmw : uf.metaWriteFail = true
          · rw [if_pos hmw] at hres ⊢
            exact hfs2
          · rw [if_neg hmw] at hres ⊢
            have hkey : (root ++ [name ++ ".upgrade"]) ++ ["metadata.json"] ≠ p := by
              intro he
              have hu : under (root ++ [name ++ ".upgrade"]) p = true :=
                he ▸ under_append _ _
              rw [htp.1] at hu
              exact Bool.noConfusion hu
            have hfs3 : FS.get (FS.set fs2 ((root ++ [name ++ ".upgrade"]) ++
                ["metadata.json"]) (.file (.infoJson (stampUpgrade newInfo version now cur))))
                p = fs.get p := by
              rw [get_set_ne _ _ _ _ (fun hh => hkey hh.symm)]
              exact hfs2
            by_cases hr1 : uf.rename1Fail = true
            · rw [if_pos hr1] at hres ⊢
              exact hfs3
            · rw [if_neg hr1] at hres ⊢
              by_cases hr2 : uf.rename2Fail = true
              · rw [if_pos hr2] at hres ⊢
                have hrf : uf.restoreFail = false := by
                  simp only at hres
                  cases hres
                  rcases hel with h1 | h1 | h1 | h1 | ⟨h1, h2⟩
                  · exact absurd h1.symm (by simp)
                  · exact absurd h1.symm (by simp)
                  · exact absurd h1.symm (by simp)
                  · exact absurd h1.symm (by simp)
                  · exact h2
                rw [hrf, if_neg Bool.false_ne_true]
                rw [get_rename_rename _ _ _ _ hpb1 hpb2 hp]
                exact hfs3
              · rw [if_neg hr2] at hres
                exact absurd hres (by simp)

/-- C4: `Upgrade` is crash-tolerant.  If the staging of the new version
fails (staging mkdir, fetch, extraction/write, or metadata write), or
the second rename fails while the backup restore succeeds, then after
`Upgrade` returns its error every path at or below the live plugin
directory `<root>/<name>` — its content and its recorded version — is
exactly as before the call.  The processor chain is assumed only to
confine its writes to ancestor prefixes of the directory it is handed
(parent-directory `MkdirAll`) and to paths extending that directory as a
string: that is the write set the bare `strings.HasPrefix` sanitization
actually allows — including the sibling-extension escapes of the C2
counterexample, which stay inside the staging area because the live name
and the staging name `<name>.upgrade` already differ at their own depth
(the zip stage's temporary file is created and removed within the stage
and never survives into the state the chain returns). -/
theorem upgrade_preserves_live :
    ∀ detect proc uf fetch now fs root name version e,
      (∀ g d s pp, FS.get ((proc g d s).2) pp ≠ FS.get g pp →
         under pp d.dropLast = true ∨ strExtends d pp = true) →
      (Upgrade detect proc uf fetch now fs root name version).1 = .error e →
      (e = .mkdirFail ∨ e = .fetchFail ∨ e = .writeFilesFail ∨ e = .metaWriteFail ∨
        (e = .rename2Fail ∧ uf.restoreFail = false)) →
      ∀ p, under (root ++ [name]) p = true →
        FS.get (Upgrade detect proc uf fetch now fs root name version).2 p = fs.get p := by
  intro detect proc uf fetch now fs root name version e hproc hres hel p hp
  have hne1 : name ≠ name ++ ".upgrade" := str_append_ne name ".upgrade" (by decide)
  have hpt1 : under (root ++ [name]) (root ++ [name ++ ".upgrade"]) = false :=
    parallel_single root name (name ++ ".upgrade") hne1
  have hpt2 : under (root ++ [name ++ ".upgrade"]) (root ++ [name]) = false :=
    parallel_single root (name ++ ".upgrade") name (Ne.symm hne1)
  have htp := parallel_frame (root ++ [name]) (root ++ [name ++ ".upgrade"]) p hpt1 hpt2 hp
  unfold Upgrade at hres ⊢
  by_cases hctx : uf.ctxCancelled = true
  · rw [if_pos hctx]
  · rw [if_neg hctx] at hres ⊢
    dsimp only at hres ⊢
    cases hst : fs.get (root ++ [name]) with
    | none => rfl
    | some x =>
      rw [hst] at hres
      dsimp only at hres ⊢
      cases hmeta : readMetadataM fs ((root ++ [name]) ++ ["metadata.json"]) with
      | none => rfl
      | some cur =>
        rw [hmeta] at hres
        dsimp only at hres ⊢
        by_cases hver : cur.version = version
        · rw [if_pos hver]
        · rw [if_neg hver] at hres ⊢
          dsimp only at hres ⊢
          rw [get_removeSubtree,
            if_neg (show ¬(under (root ++ [name ++ ".upgrade"]) p = true) from by
              rw [htp.1]; exact Bool.false_ne_true)]
          exact upgradeCore_frame detect proc uf fetch now fs root name version cur
            e p hproc hres hel hp

/-- Witness for C4: a concrete upgrade whose second rename fails with a
successful restore; the live record path is untouched. -/
theorem upgrade_preserves_live_witness :
    (Upgrade (fun _ => "") (fun g _ _ => (.ok none, g))
        ⟨false, false, ⟨false, false, false⟩, false, false, true, false⟩
        (.ok ⟨"t", "bin", "", "", "", "", [], "", .str "x"⟩) "T"
        [(["r"], .dir), (["r", "t"], .dir),
         (["r", "t", "metadata.json"],
          Entry.file (.infoJson ⟨"t", "bin", "1", "", "", "", [], "enabled", .unsupported⟩))]
        ["r"] "t" "2").1 = .error .rename2Fail ∧
    FS.get (Upgrade (fun _ => "") (fun g _ _ => (.ok none, g))
        ⟨false, false, ⟨false, false, false⟩, false, false, true, false⟩
        (.ok ⟨"t", "bin", "", "", "", "", [], "", .str "x"⟩) "T"
        [(["r"], .dir), (["r", "t"], .dir),
         (["r", "t", "metadata.json"],
          Entry.file (.infoJson ⟨"t", "bin", "1", "", "", "", [], "enabled", .unsupported⟩))]
        ["r"] "t" "2").2 ["r", "t", "metadata.json"] =
      FS.get [(["r"], .dir), (["r", "t"], .dir),
         (["r", "t", "metadata.json"],
          Entry.file (.infoJson ⟨"t", "bin", "1", "", "", "", [], "enabled", .unsupported⟩))]
        ["r", "t", "metadata.json"] := by
  have h : (Upgrade (fun _ => "") (fun g _ _ => (.ok none, g))
      ⟨false, false, ⟨false, false, false⟩, false, false, true, false⟩
      (.ok ⟨"t", "bin", "", "", "", "", [], "", .str "x"⟩) "T"
      [(["r"], .dir), (["r", "t"], .dir),
       (["r", "t", "metadata.json"],
        Entry.file (.infoJson ⟨"t", "bin", "1", "", "", "", [], "enabled", .unsupported⟩))]
      ["r"] "t" "2").1 = .error .rename2Fail := by rfl
  refine ⟨h, ?_⟩
  exact upgrade_preserves_live (fun _ => "") (fun g _ _ => (.ok none, g))
    ⟨false, false, ⟨false, false, false⟩, false, false, true, false⟩
    (.ok ⟨"t", "bin", "", "", "", "", [], "", .str "x"⟩) "T"
    [(["r"], .dir), (["r", "t"], .dir),
     (["r", "t", "metadata.json"],
      Entry.file (.infoJson ⟨"t", "bin", "1", "", "", "", [], "enabled", .unsupported⟩))]
    ["r"] "t" "2" .rename2Fail (fun g d s pp hne => absurd rfl hne) h
    (Or.inr (Or.inr (Or.inr (Or.inr ⟨rfl, rfl⟩)))) ["r", "t", "metadata.json"] (by decide)

/-- C10: once `Upgrade` passes its precondition checks (context not
cancelled, plugin directory present, readable current record, version
differs), the temporary staging directory `<root>/<name>.upgrade` does
not exist after the call returns — the deferred removal runs on every
exit, success or failure. -/
theorem upgrade_tmpdir_removed :
    ∀ detect proc uf fetch now fs root name version cur,
      uf.ctxCancelled = false →
      FS.get fs (root ++ [name]) ≠ none →
      readMetadataM fs ((root ++ [name]) ++ ["metadata.json"]) = some cur →
      cur.version ≠ version →
      ∀ p, under (root ++ [name ++ ".upgrade"]) p = true →
        FS.get (Upgrade detect proc uf fetch now fs root name version).2 p = none := by
  intro detect proc uf fetch now fs root name version cur hctx hst hmeta hver p hp
  unfold Upgrade
  rw [hctx, if_neg Bool.false_ne_true]
  dsimp only
  cases hx : fs.get (root ++ [name]) with
  | none => exact absurd hx hst
  | some x =>
    dsimp only
    rw [hmeta]
    dsimp only
    rw [if_neg hver]
    dsimp only
    rw [get_removeSubtree, if_pos hp]

/-- Witness for C10: a concrete successful upgrade leaves no staging
directory behind. -/
theorem upgrade_tmpdir_removed_witness :
    FS.get (Upgrade (fun _ => "") (fun g _ _ => (.ok none, g))
        ⟨false, false, ⟨false, false, false⟩, false, false, false, false⟩
        (.ok ⟨"t", "bin", "", "", "", "", [], "", .str "x"⟩) "T"
        [(["r"], .dir), (["r", "t"], .dir),
         (["r", "t", "metadata.json"],
          Entry.file (.infoJson ⟨"t", "bin", "1", "", "", "", [], "enabled", .unsupported⟩))]
        ["r"] "t" "2").2 ["r", "t.upgrade"] = none :=
  upgrade_tmpdir_removed (fun _ => "") (fun g _ _ => (.ok none, g))
    ⟨false, false, ⟨false, false, false⟩, false, false, false, false⟩
    (.ok ⟨"t", "bin", "", "", "", "", [], "", .str "x"⟩) "T"
    [(["r"], .dir), (["r", "t"], .dir),
     (["r", "t", "metadata.json"],
      Entry.file (.infoJson ⟨"t", "bin", "1", "", "", "", [], "enabled", .unsupported⟩))]
    ["r"] "t" "2" ⟨"t", "bin", "1", "", "", "", [], "enabled", .unsupported⟩
    rfl (by decide) rfl (by decide) ["r", "t.upgrade"] (by decide)

end Libext
